import Mathlib

/-!
Verification development for the SciPathBench graph-exploration engine.

The definitions below are shallow embeddings of the Python sources:
  - `src/src/core/paper_graph.py`   (`PaperGraph`)
  - `src/src/agents/web_human_agent.py` (`WebHumanAgent.initialize_game` /
    `WebHumanAgent.make_choice`, the exploration-session state machine)
  - `src/src/core/graph_search.py`  (`GraphSearch.find_shortest_path_bfs` /
    `GraphSearch._bfs_step`, the bidirectional BFS ground-truth solver)
  - `src/src/services/openalex_client.py` (`OpenAlexClient.get_neighbors`
    and its helpers)

External HTTP traffic is abstracted as total functions supplied by the
environment (`ApiEnv`, `Provider`): a `none` result stands for a falsy
response (`None` or an empty dict/list in Python).  Regex matching of the
pattern `openalex:(W\d+)` inside OpenCitations records is abstracted as the
environment function `findall`.  Display-only payloads of the session's step
results (paper metadata lists pushed to the web client) are omitted; the
result kind and the fields used by callers (`turns_used` / `current_turn`)
are kept.
-/

namespace SciPathBench

abbrev NodeId := String

/-! ### OpenAlex client (`src/src/services/openalex_client.py`) -/

/-- Relevant fields of a work JSON returned by `GET /works/{id}`:
`(work.get('ids') or {}).get('doi')` and `work.get('referenced_works', [])`. -/
structure OAWork where
  ids_doi : Option String
  referenced_works : List String
  deriving Repr, DecidableEq

/-- One OpenCitations record; only the `cited` and `citing` string fields are
read by `_extract_openalex_ids_from_opencitations`.  A `none` field stands for
a missing or non-string value. -/
structure OCItem where
  cited : Option String
  citing : Option String
  deriving Repr, DecidableEq

/-- The HTTP world seen by the client.  `works` is the (cached) result of
`_make_request` on `/works/{norm}` (`none` = request failed or 404 or empty
body); `oc` is the result of the OpenCitations references request, keyed by
the cleaned DOI; `findall` abstracts `re.findall` for `openalex:(W\d+)`. -/
structure ApiEnv where
  works : String → Option OAWork
  oc : String → Option (List OCItem)
  findall : String → List String

/-- `OpenAlexClient._normalize_id`. -/
def normalize_id (s : String) : String :=
  if s = "" then s
  else
    let parts := (s.splitOn "/").filter (fun p => decide (p ≠ ""))
    match parts.getLast? with
    | some p => p
    | none => s

/-- `OpenAlexClient._is_doi`: the two lowercase prefix tests plus the regex
`^10\.\d{4,9}/\S+` (anchored match), spelled out over characters. -/
def is_doi (s : String) : Bool :=
  if s = "" then false
  else if s.toLower.startsWith "doi:" then true
  else if s.toLower.startsWith "https://doi.org/" then true
  else
    s.startsWith "10." &&
      (let rest := s.drop 3
       let ds := rest.takeWhile Char.isDigit
       decide (4 ≤ ds.length) && decide (ds.length ≤ 9) &&
         (rest.drop ds.length).startsWith "/" &&
         (let tl := rest.drop (ds.length + 1)
          !tl.isEmpty && !tl.front.isWhitespace))

/-- `OpenAlexClient._clean_doi`. -/
def clean_doi (s : String) : String :=
  let d := s.trim
  let d := if d.toLower.startsWith "doi:" then d.drop 4 else d
  if d.toLower.startsWith "https://doi.org/" then d.drop 16 else d

/-- `OpenAlexClient._make_open_citations_request`: strips a literal `doi:`
prefix (via `str.replace`, which the guard restricts to the prefixed case)
and queries the OpenCitations endpoint. -/
def make_open_citations_request (env : ApiEnv) (id : String) : Option (List OCItem) :=
  let clean := if id.startsWith "doi:" then id.replace "doi:" "" else id
  env.oc clean

/-- Inner dedupe loop of `_extract_openalex_ids_from_opencitations`:
append each match not already collected. -/
def addMatches (results : List String) (ms : List String) : List String :=
  ms.foldl (fun rs m => if m ∈ rs then rs else rs ++ [m]) results

/-- Matches contributed by one optional field: skipped when missing (`none`,
covering non-strings) or empty. -/
def fieldMatches (env : ApiEnv) (v : Option String) : List String :=
  match v with
  | none => []
  | some s => if s = "" then [] else env.findall s

/-- `OpenAlexClient._extract_openalex_ids_from_opencitations`: collect the
deduplicated `W...` ids from the `cited` then `citing` field of each record
(the `if not oc_items` guard coincides with folding over `[]`). -/
def extractOpenAlexIds (env : ApiEnv) (items : List OCItem) : List String :=
  items.foldl
    (fun rs it => addMatches (addMatches rs (fieldMatches env it.cited)) (fieldMatches env it.citing))
    []

/-- The `doi` branch of `OpenAlexClient.get_neighbors`. -/
def get_neighbors_doi (env : ApiEnv) (doi : String) : List String :=
  match make_open_citations_request env doi with
  | none => []
  | some items =>
    if items.isEmpty then []
    else
      let ids := extractOpenAlexIds env items
      if ids.isEmpty then [] else ids.take 25

/-- Python truthiness of an optional string argument. -/
def truthyS : Option String → Bool
  | none => false
  | some s => !(s == "")

/-- The "prefer OpenCitations when the work has a DOI" detour inside the `id`
branch of `get_neighbors`: `some` is an early `return oc_openalex_ids[:25]`,
`none` falls through to `referenced_works`. -/
def via_opencitations (env : ApiEnv) (work : OAWork) : Option (List String) :=
  match work.ids_doi with
  | none => none
  | some dv =>
    if dv = "" then none
    else
      match make_open_citations_request env dv with
      | none => none
      | some items =>
        if items.isEmpty then none
        else
          let ocIds := extractOpenAlexIds env items
          if ocIds.isEmpty then none else some (ocIds.take 25)

/-- `OpenAlexClient.get_neighbors(id=None, doi=None)`.  The one recursive call
`self.get_neighbors(doi=doi_clean)` is inlined: with `id=None` it lands in the
`doi` branch when the cleaned DOI is truthy and in the final `[]` branch
otherwise. -/
def get_neighbors (env : ApiEnv) (id doi : Option String) : List String :=
  if truthyS doi then get_neighbors_doi env (doi.getD "")
  else if truthyS id then
    let i := id.getD ""
    if is_doi i then
      let d := clean_doi i
      if d = "" then [] else get_neighbors_doi env d
    else
      let norm := normalize_id i
      match env.works norm with
      | none => []
      | some work =>
        match via_opencitations env work with
        | some out => out
        | none => (work.referenced_works.take 25).map normalize_id
  else []

/-! ### Paper graph (`src/src/core/paper_graph.py`) -/

/-- Relevant fields of a paper JSON as consumed by `PaperGraph.add_node` and
`WebHumanAgent._extract_paper_metadata`.  A missing dict key is `none`;
numeric concept scores are abstracted to integers. -/
structure PaperData where
  idUrl : Option String
  title : Option String
  publication_year : Option Int
  authorships : List (Option String)
  concepts : List (Option String × Option Int)
  cited_by_count : Option Nat
  ids_doi : Option String
  deriving Repr, DecidableEq

/-- A stored node value of `PaperGraph.nodes`: `add_node` fills the fields
with defaults (`year` is the Python value `"Unknown"` when `none`). -/
structure NodeData where
  title : String
  year : Option Int
  concepts : List (Option String)
  doi : String
  node_type : String
  deriving Repr, DecidableEq

/-- The node record built by `PaperGraph.add_node` from a truthy paper dict. -/
def mkNodeData (p : PaperData) (node_type : String) : NodeData :=
  { title := p.title.getD "Unknown Title"
    year := p.publication_year
    concepts := p.concepts.map Prod.fst
    doi := p.ids_doi.getD "N/A"
    node_type := node_type }

/-- Python-dict assignment on an association list: replace the value in place
when the key exists, otherwise append. -/
def dictInsert {β : Type} (m : List (NodeId × β)) (k : NodeId) (v : β) : List (NodeId × β) :=
  if k ∈ m.map Prod.fst then
    m.map (fun kv => if kv.1 = k then (kv.1, v) else kv)
  else m ++ [(k, v)]

/-- `PaperGraph` (`paper_graph.py`): `nodes` dict, `edges` list of
`{source, target}` records, and the walked `agent_path`. -/
structure PaperGraph where
  nodes : List (NodeId × NodeData)
  edges : List (NodeId × NodeId)
  agent_path : List NodeId
  deriving Repr, DecidableEq

def PaperGraph.empty : PaperGraph := { nodes := [], edges := [], agent_path := [] }

/-- `PaperGraph.add_node`: no-op on a falsy (`None`/empty) dict, otherwise
wholesale replacement of the entry. -/
def PaperGraph.add_node (g : PaperGraph) (paper_id : NodeId) (paper_data : Option PaperData)
    (node_type : String) : PaperGraph :=
  match paper_data with
  | none => g
  | some p => { g with nodes := dictInsert g.nodes paper_id (mkNodeData p node_type) }

/-- `PaperGraph.add_edge`: append the `{source, target}` record unless the
identical record is already present. -/
def PaperGraph.add_edge (g : PaperGraph) (source target : NodeId) : PaperGraph :=
  if (source, target) ∈ g.edges then g else { g with edges := g.edges ++ [(source, target)] }

/-- `self.graph.nodes[pid]["node_type"] = t`, guarded by `pid in self.graph.nodes`
(used by `make_choice`). -/
def PaperGraph.setNodeType (g : PaperGraph) (paper_id : NodeId) (t : String) : PaperGraph :=
  if paper_id ∈ g.nodes.map Prod.fst then
    { g with
      nodes := g.nodes.map (fun kv => if kv.1 = paper_id then (kv.1, { kv.2 with node_type := t }) else kv) }
  else g

/-! ### Exploration session (`src/src/agents/web_human_agent.py`) -/

/-- The metadata record built by `WebHumanAgent._extract_paper_metadata` for a
truthy paper dict (the falsy branch returns `{}` and is never stored in the
frontier, whose writes are guarded by `if neighbor_paper`). -/
structure WebMeta where
  id : String
  title : String
  year : Option Int
  authors : List String
  concepts : List (String × Int)
  cited_by_count : Nat
  doi : String
  deriving Repr, DecidableEq

/-- `WebHumanAgent._extract_paper_metadata` on a truthy paper dict. -/
def extract_paper_metadata (p : PaperData) : WebMeta :=
  { id := (((p.idUrl.getD "").splitOn "/").getLast?).getD ""
    title := p.title.getD "Unknown Title"
    year := p.publication_year
    authors := (p.authorships.take 3).map (fun a => a.getD "Unknown Author")
    concepts := (p.concepts.take 3).map (fun c => (c.1.getD "Unknown Concept", c.2.getD 0))
    cited_by_count := p.cited_by_count.getD 0
    doi := p.ids_doi.getD "N/A" }

/-- The data provider seen by the session: `get_paper_by_id` and
`get_neighbors` of the API client (`get_many_papers` prefetches the same
per-id `get_paper_by_id` results in parallel and is modelled pointwise). -/
structure Provider where
  getPaper : NodeId → Option PaperData
  getNeighbors : NodeId → List NodeId

/-- Mutable state of a `WebHumanAgent` session.  The `visited_nodes` Python
set is a duplicate-free list (every insertion in the source is guarded by a
membership test); the `frontier` dict is an association list in insertion
order. -/
structure SessionState where
  graph : PaperGraph
  visited_nodes : List NodeId
  frontier : List (NodeId × WebMeta)
  start_id : NodeId
  end_id : NodeId
  max_turns : Nat
  current_turn : Nat
  game_active : Bool
  deriving Repr, DecidableEq

/-- Keys of the frontier dict. -/
def frontierKeys (s : SessionState) : List NodeId := s.frontier.map Prod.fst

/-- The neighbor loop of `initialize_game`: for each fetched neighbor of the
start node, add the edge, then (if unvisited) mark visited and, when its
metadata resolves, add the node and a frontier entry.  No neighbor is compared
against the end id here. -/
def initExpandLoop (P : Provider) (startId : NodeId) :
    List NodeId → PaperGraph × List NodeId × List (NodeId × WebMeta) →
    PaperGraph × List NodeId × List (NodeId × WebMeta)
  | [], st => st
  | n :: ns, (g, v, f) =>
    let g := g.add_edge startId n
    if n ∈ v then initExpandLoop P startId ns (g, v, f)
    else
      let v := v ++ [n]
      match P.getPaper n with
      | some paper =>
        initExpandLoop P startId ns
          (g.add_node n (some paper) "referenced", v, dictInsert f n (extract_paper_metadata paper))
      | none => initExpandLoop P startId ns (g, v, f)

/-- `WebHumanAgent.initialize_game`: reset the state, fetch start and end
metadata (failure of either returns `false`), seed graph/visited/path with the
start node, and auto-expand it.  As in the source, the neighbor loop is
skipped entirely when every fetched neighbor is already visited. -/
def initialize_game (P : Provider) (startId endId : NodeId) (maxTurns : Nat) :
    Bool × SessionState :=
  let s0 : SessionState :=
    { graph := PaperGraph.empty, visited_nodes := [], frontier := []
      start_id := startId, end_id := endId, max_turns := maxTurns
      current_turn := 0, game_active := true }
  match P.getPaper startId, P.getPaper endId with
  | some sp, some ep =>
    let g := (PaperGraph.empty.add_node startId (some sp) "start").add_node endId (some ep) "end"
    let v := [startId]
    let g := { g with agent_path := g.agent_path ++ [startId] }
    let ns := P.getNeighbors startId
    let newIds := ns.filter (fun n => decide (n ∉ v))
    let gvf := if newIds.isEmpty then (g, v, ([] : List (NodeId × WebMeta)))
               else initExpandLoop P startId ns (g, v, [])
    (true, { s0 with graph := gvf.1, visited_nodes := gvf.2.1, frontier := gvf.2.2 })
  | _, _ => (false, s0)

/-- Step results of `WebHumanAgent.make_choice`, keeping the result kind and
the turn count reported to the caller. -/
inductive ChoiceResult where
  | notActive
  | invalidChoice
  | won (turns_used : Nat)
  | turnLimit (turns_used : Nat)
  | exhausted (turns_used : Nat)
  | continueGame (current_turn : Nat)
  deriving Repr, DecidableEq

/-- The neighbor loop of `make_choice`: every neighbor gets an edge from the
chosen node; a neighbor that is unvisited and different from the end id is
marked visited and, when its metadata resolves, added as a node and a frontier
entry. -/
def choiceExpandLoop (P : Provider) (endId chosenId : NodeId) :
    List NodeId → PaperGraph × List NodeId × List (NodeId × WebMeta) →
    PaperGraph × List NodeId × List (NodeId × WebMeta)
  | [], st => st
  | n :: ns, (g, v, f) =>
    let g := g.add_edge chosenId n
    if n ∉ v ∧ n ≠ endId then
      let v := v ++ [n]
      match P.getPaper n with
      | some paper =>
        choiceExpandLoop P endId chosenId ns
          (g.add_node n (some paper) "referenced", v, dictInsert f n (extract_paper_metadata paper))
      | none => choiceExpandLoop P endId chosenId ns (g, v, f)
    else choiceExpandLoop P endId chosenId ns (g, v, f)

/-- `WebHumanAgent.make_choice`: reject when the game is inactive or the
choice is not a frontier key; otherwise count the turn, walk to the chosen
node, expand it, and apply the terminal checks (win, then turn limit, then
frontier exhaustion) in source order. -/
def make_choice (P : Provider) (s : SessionState) (paper_id : NodeId) :
    ChoiceResult × SessionState :=
  if s.game_active = false then (ChoiceResult.notActive, s)
  else if paper_id ∉ s.frontier.map Prod.fst then (ChoiceResult.invalidChoice, s)
  else
    let turn := s.current_turn + 1
    let g := { s.graph with agent_path := s.graph.agent_path ++ [paper_id] }
    let g := g.setNodeType paper_id "agent_path"
    let f := s.frontier.filter (fun kv => decide (kv.1 ≠ paper_id))
    let ns := P.getNeighbors paper_id
    if s.end_id ∈ ns then
      let g := { g with agent_path := g.agent_path ++ [s.end_id] }
      let g := g.setNodeType s.end_id "agent_path"
      (ChoiceResult.won turn,
        { s with graph := g, frontier := f, current_turn := turn, game_active := false })
    else
      let gvf := choiceExpandLoop P s.end_id paper_id ns (g, s.visited_nodes, f)
      if turn ≥ s.max_turns then
        (ChoiceResult.turnLimit turn,
          { s with graph := gvf.1, visited_nodes := gvf.2.1, frontier := gvf.2.2
                   current_turn := turn, game_active := false })
      else if gvf.2.2.isEmpty then
        (ChoiceResult.exhausted turn,
          { s with graph := gvf.1, visited_nodes := gvf.2.1, frontier := gvf.2.2
                   current_turn := turn, game_active := false })
      else
        (ChoiceResult.continueGame turn,
          { s with graph := gvf.1, visited_nodes := gvf.2.1, frontier := gvf.2.2
                   current_turn := turn, game_active := true })

/-- Run a sequence of `make_choice` calls, returning the final state and the
result of the last call (`none` when the sequence is empty). -/
def runChoices (P : Provider) : SessionState → List NodeId → SessionState × Option ChoiceResult
  | s, [] => (s, none)
  | s, c :: cs =>
    let r := make_choice P s c
    match cs with
    | [] => (r.2, some r.1)
    | _ :: _ => runChoices P r.2 cs

/-- A sequence of choices is a valid non-winning run from `s`: at each call
the session is active, the choice is a current frontier key, and the end node
is not among the chosen node's fetched neighbors. -/
def validRun (P : Provider) : SessionState → List NodeId → Bool
  | _, [] => true
  | s, c :: cs =>
    s.game_active && decide (c ∈ s.frontier.map Prod.fst) &&
      decide (s.end_id ∉ P.getNeighbors c) && validRun P (make_choice P s c).2 cs

/-! ### Bidirectional BFS (`src/src/core/graph_search.py`)

The Python `visited_fwd` / `visited_bwd` dicts map a node id to the path from
the respective root to that node; they are embedded as association lists (keys
are inserted at most once, since every insertion is guarded by a membership
test).  The `deque` processed by `_bfs_step` pops exactly the current level
and appends the next one, so a step is folded over the level list with the
next level as an accumulator.  A `Nat` counter instrumenting the number of
`api_client.get_neighbors` calls is threaded through (one call per expanded
node). -/

/-- A visited map of one search direction. -/
abbrev VMap := List (NodeId × List NodeId)

/-- Keys of a visited map. -/
def vkeys (v : VMap) : List NodeId := v.map Prod.fst

/-- `visited[k]` (total; the default never fires on keys of the map). -/
def vlookup : VMap → NodeId → List NodeId
  | [], _ => []
  | kv :: rest, k => if kv.1 = k then kv.2 else vlookup rest k

/-- The inner neighbor loop of `_bfs_step` for one expanded node with stored
path `path`: a neighbor found in the other side's visited map stitches and
returns the combined path; an unvisited neighbor records its path and is
queued for the next level. -/
def bfs_scan (backward : Bool) (vother : VMap) (path : List NodeId) :
    List NodeId → VMap → List NodeId → Option (List NodeId) × VMap × List NodeId
  | [], v, acc => (none, v, acc)
  | n :: ns, v, acc =>
    if n ∈ vkeys vother then
      (some (if backward then vlookup vother n ++ path.reverse
             else path ++ (vlookup vother n).reverse), v, acc)
    else if n ∈ vkeys v then bfs_scan backward vother path ns v acc
    else bfs_scan backward vother path ns (v ++ [(n, path ++ [n])]) (acc ++ [n])

/-- The outer loop of `_bfs_step` over the current level, fetching each
node's neighbors (counted) and scanning them; the accumulator becomes the next
level's queue. -/
def bfs_process (nbrs : NodeId → List NodeId) (backward : Bool) (vother : VMap) :
    List NodeId → VMap → List NodeId → Nat →
    Option (List NodeId) × VMap × List NodeId × Nat
  | [], v, acc, cnt => (none, v, acc, cnt)
  | cur :: pend, v, acc, cnt =>
    let path := vlookup v cur
    let r := bfs_scan backward vother path (nbrs cur) v acc
    match r.1 with
    | some p => (some p, r.2.1, r.2.2, cnt + 1)
    | none => bfs_process nbrs backward vother pend r.2.1 r.2.2 (cnt + 1)

/-- `GraphSearch._bfs_step`: no-op on an empty queue, otherwise one full
level expansion. -/
def bfs_step (nbrs : NodeId → List NodeId) (backward : Bool) (queue : List NodeId)
    (vself vother : VMap) (cnt : Nat) :
    Option (List NodeId) × VMap × List NodeId × Nat :=
  if queue.isEmpty then (none, vself, queue, cnt)
  else bfs_process nbrs backward vother queue vself [] cnt

/-- The round loop of `find_shortest_path_bfs`: one forward level expansion,
then one backward level expansion whose other-side map is the forward map
just updated in place, for at most `fuel` rounds. -/
def bfs_loop (nbrs : NodeId → List NodeId) :
    Nat → List NodeId → VMap → List NodeId → VMap → Nat → Option (List NodeId) × Nat
  | 0, _, _, _, _, cnt => (none, cnt)
  | fuel + 1, qf, vf, qb, vb, cnt =>
    let rf := bfs_step nbrs false qf vf vb cnt
    match rf.1 with
    | some p => (some p, rf.2.2.2)
    | none =>
      let rb := bfs_step nbrs true qb vb rf.2.1 rf.2.2.2
      match rb.1 with
      | some p => (some p, rb.2.2.2)
      | none => bfs_loop nbrs fuel rf.2.2.1 rf.2.1 rb.2.2.1 rb.2.1 rb.2.2.2

/-- `GraphSearch.find_shortest_path_bfs` with the configured `BFS_MAX_DEPTH`
as the explicit argument `maxDepth` (the config sets it to 10).  The first
component is the returned path (`none` = "not found"); the second counts the
`get_neighbors` fetches issued, matching the literal `return [start_id], 0`
of the trivial branch (the solver never fetches single-paper metadata). -/
def find_shortest_path_bfs (nbrs : NodeId → List NodeId) (start_id end_id : NodeId)
    (maxDepth : Nat) : Option (List NodeId) × Nat :=
  if start_id = end_id then (some [start_id], 0)
  else bfs_loop nbrs maxDepth [start_id] [(start_id, [start_id])] [end_id] [(end_id, [end_id])] 0

/-- Nodes reachable from `r` along `nbrs`-edges by a path of at most `n`
edges. -/
def reachWithin (nbrs : NodeId → List NodeId) : Nat → NodeId → List NodeId
  | 0, r => [r]
  | n + 1, r => r :: (nbrs r).flatMap (reachWithin nbrs n)

/-- A path stitched from a forward partial path and a reversed backward
partial path around a meeting node `m`: it starts at `a`, ends at `b`, the
forward part steps along `nbrs`-edges, the reversed backward part steps
against them, and the meeting node occurs exactly once. -/
def StitchedPath (nbrs : NodeId → List NodeId) (a b : NodeId) (p : List NodeId) : Prop :=
  ∃ fp bp m, p = fp ++ m :: bp ∧
    (fp ++ [m]).head? = some a ∧
    (m :: bp).getLast? = some b ∧
    List.Chain' (fun x y => y ∈ nbrs x) (fp ++ [m]) ∧
    List.Chain' (fun x y => x ∈ nbrs y) (m :: bp) ∧
    p.count m = 1

/-- Well-formedness of one side's visited map: every stored path starts at the
side's root, ends at its key, walks `nbrs`-edges, repeats no node, visits only
keys of the map, and has at most `m` nodes. -/
structure SideWF (nbrs : NodeId → List NodeId) (root : NodeId) (m : Nat) (v : VMap) : Prop where
  head : ∀ kp ∈ v, kp.2.head? = some root
  last : ∀ kp ∈ v, kp.2.getLast? = some kp.1
  chain : ∀ kp ∈ v, List.Chain' (fun x y => y ∈ nbrs x) kp.2
  nodup : ∀ kp ∈ v, kp.2.Nodup
  elems : ∀ kp ∈ v, ∀ x ∈ kp.2, x ∈ vkeys v
  len : ∀ kp ∈ v, kp.2.length ≤ m

/-- States of one session reachable from `initialize_game` by any sequence of
`make_choice` calls. -/
inductive Reachable (P : Provider) (startId endId : NodeId) (maxTurns : Nat) :
    SessionState → Prop where
  | init : Reachable P startId endId maxTurns (initialize_game P startId endId maxTurns).2
  | step (s : SessionState) (c : NodeId) :
      Reachable P startId endId maxTurns s →
      Reachable P startId endId maxTurns (make_choice P s c).2

/-! ### Concrete fixtures for witnesses and counterexamples -/

/-- The undirected chain `A - B - C - D` of the spec's end-to-end scenario. -/
def nbrsChain : NodeId → List NodeId
  | "A" => ["B"]
  | "B" => ["A", "C"]
  | "C" => ["B", "D"]
  | "D" => ["C"]
  | _ => []

/-- A sample truthy paper dict. -/
def samplePaper : PaperData :=
  { idUrl := none
    title := some "T"
    publication_year := none
    authorships := []
    concepts := []
    cited_by_count := none
    ids_doi := none }

/-- Provider over the chain graph with all metadata resolving. -/
def chainProvider : Provider :=
  { getPaper := fun _ => some samplePaper, getNeighbors := nbrsChain }

/-- Provider where the end node `B` is a direct neighbor of the start node
`A`, and also a neighbor of the further node `C`. -/
def endAdjProvider : Provider :=
  { getPaper := fun _ => some samplePaper
    getNeighbors := fun i => if i = "A" then ["B", "C"] else if i = "C" then ["B"] else [] }

/-- Provider whose metadata fetches all fail. -/
def failProvider : Provider :=
  { getPaper := fun _ => none, getNeighbors := fun _ => [] }

/-- API environment in which every request fails. -/
def emptyApiEnv : ApiEnv :=
  { works := fun _ => none, oc := fun _ => none, findall := fun _ => [] }

/-- A neighbor function with no edges at all. -/
def noEdges : NodeId → List NodeId := fun _ => []

/-- A session state used to exercise `make_choice` directly: active, one
frontier entry `B`. -/
def sampleActiveState : SessionState :=
  { graph := PaperGraph.empty
    visited_nodes := ["A", "B"]
    frontier := [("B", extract_paper_metadata samplePaper)]
    start_id := "A"
    end_id := "D"
    max_turns := 5
    current_turn := 0
    game_active := true }

/-- Lookup in the nodes dict of a `PaperGraph`. -/
def lookupNode (g : PaperGraph) (k : NodeId) : Option NodeData :=
  (g.nodes.find? (fun kv => decide (kv.1 = k))).map Prod.snd

/-- `add_edge` folded over a list of ordered pairs. -/
def addEdges (g : PaperGraph) (ps : List (NodeId × NodeId)) : PaperGraph :=
  ps.foldl (fun g e => g.add_edge e.1 e.2) g

/-! ### Helper lemmas -/

theorem find?_append_right {β : Type} (m : List (NodeId × β)) (k : NodeId) (v : β)
    (h : k ∉ m.map Prod.fst) :
    (m ++ [(k, v)]).find? (fun kv => decide (kv.1 = k)) = some (k, v) := by
  induction m with
  | nil => simp
  | cons kv rest ih =>
    simp only [List.map_cons, List.mem_cons, not_or] at h
    rw [List.cons_append, List.find?_cons_of_neg _ (by simp [Ne.symm h.1])]
    exact ih h.2

theorem find?_mapReplace {β : Type} (m : List (NodeId × β)) (k : NodeId) (v : β)
    (h : k ∈ m.map Prod.fst) :
    (m.map (fun kv => if kv.1 = k then (kv.1, v) else kv)).find? (fun kv => decide (kv.1 = k))
      = some (k, v) := by
  induction m with
  | nil => simp at h
  | cons kv rest ih =>
    by_cases hk : kv.1 = k
    · subst hk
      rw [List.map_cons, if_pos rfl, List.find?_cons_of_pos _ (by simp)]
    · rw [List.map_cons, if_neg hk, List.find?_cons_of_neg _ (by simp [hk])]
      apply ih
      rcases List.mem_cons.mp h with h1 | h1
      · exact absurd h1.symm hk
      · exact h1

theorem find?_dictInsert {β : Type} (m : List (NodeId × β)) (k : NodeId) (v : β) :
    (dictInsert m k v).find? (fun kv => decide (kv.1 = k)) = some (k, v) := by
  unfold dictInsert
  by_cases h : k ∈ m.map Prod.fst
  · rw [if_pos h]; exact find?_mapReplace m k v h
  · rw [if_neg h]; exact find?_append_right m k v h

theorem add_edge_edges_nodup (g : PaperGraph) (a b : NodeId) (h : g.edges.Nodup) :
    (g.add_edge a b).edges.Nodup := by
  unfold PaperGraph.add_edge
  split
  · exact h
  · next hmem => simpa using List.Nodup.append h (List.nodup_singleton _) (by simpa using hmem)

theorem addEdges_edges_nodup (ps : List (NodeId × NodeId)) (g : PaperGraph)
    (h : g.edges.Nodup) : (addEdges g ps).edges.Nodup := by
  induction ps generalizing g with
  | nil => exact h
  | cons p ps ih => exact ih _ (add_edge_edges_nodup g p.1 p.2 h)

theorem setNodeType_agent_path (g : PaperGraph) (i : NodeId) (t : String) :
    (g.setNodeType i t).agent_path = g.agent_path := by
  unfold PaperGraph.setNodeType
  split <;> rfl

theorem keys_dictInsert {β : Type} (m : List (NodeId × β)) (k : NodeId) (v : β) (k' : NodeId) :
    k' ∈ (dictInsert m k v).map Prod.fst ↔ (k' ∈ m.map Prod.fst ∨ k' = k) := by
  unfold dictInsert
  by_cases h : k ∈ m.map Prod.fst
  · rw [if_pos h]
    have hkeys : (m.map (fun kv => if kv.1 = k then (kv.1, v) else kv)).map Prod.fst
        = m.map Prod.fst := by
      rw [List.map_map]
      apply List.map_congr_left
      intro kv _
      by_cases hk : kv.1 = k <;> simp [hk]
    rw [hkeys]
    constructor
    · exact Or.inl
    · rintro (h1 | rfl)
      · exact h1
      · exact h
  · rw [if_neg h]
    simp [List.map_append]

theorem mem_keys_filter {β : Type} (m : List (NodeId × β)) (c k : NodeId) :
    k ∈ (m.filter (fun kv => decide (kv.1 ≠ c))).map Prod.fst ↔
      (k ∈ m.map Prod.fst ∧ k ≠ c) := by
  constructor
  · intro h
    rcases List.mem_map.mp h with ⟨kv, hkv, rfl⟩
    rcases List.mem_filter.mp hkv with ⟨hm, hne⟩
    exact ⟨List.mem_map_of_mem _ hm, by simpa using hne⟩
  · rintro ⟨h1, h2⟩
    rcases List.mem_map.mp h1 with ⟨kv, hkv, rfl⟩
    exact List.mem_map_of_mem _ (List.mem_filter.mpr ⟨hkv, by simpa using h2⟩)

theorem add_edge_agent_path (g : PaperGraph) (a b : NodeId) :
    (g.add_edge a b).agent_path = g.agent_path := by
  unfold PaperGraph.add_edge
  split <;> rfl

theorem add_node_agent_path (g : PaperGraph) (i : NodeId) (d : Option PaperData) (t : String) :
    (g.add_node i d t).agent_path = g.agent_path := by
  unfold PaperGraph.add_node
  cases d <;> rfl

theorem choiceExpandLoop_inv (P : Provider) (e c : NodeId) :
    ∀ (ns : List NodeId) (g : PaperGraph) (v : List NodeId) (f : List (NodeId × WebMeta)),
      (∀ k ∈ f.map Prod.fst, k ∈ v) →
      (choiceExpandLoop P e c ns (g, v, f)).1.agent_path = g.agent_path ∧
      (∀ x ∈ v, x ∈ (choiceExpandLoop P e c ns (g, v, f)).2.1) ∧
      (∀ k ∈ (choiceExpandLoop P e c ns (g, v, f)).2.2.map Prod.fst,
        k ∈ (choiceExpandLoop P e c ns (g, v, f)).2.1) ∧
      (∀ k ∈ (choiceExpandLoop P e c ns (g, v, f)).2.2.map Prod.fst,
        k ∈ f.map Prod.fst ∨ (k ∈ ns ∧ k ∉ v ∧ k ≠ e)) := by
  intro ns
  induction ns with
  | nil =>
    intro g v f hf
    exact ⟨rfl, fun x hx => hx, hf, fun k hk => Or.inl hk⟩
  | cons n ns ih =>
    intro g v f hf
    simp only [choiceExpandLoop]
    by_cases hcond : n ∉ v ∧ n ≠ e
    · rw [if_pos hcond]
      cases hp : P.getPaper n with
      | none =>
        simp only [hp]
        obtain ⟨h1, h2, h3, h4⟩ := ih (g.add_edge c n) (v ++ [n]) f
          (fun k hk => List.mem_append_left _ (hf k hk))
        refine ⟨by rw [h1, add_edge_agent_path],
                fun x hx => h2 x (List.mem_append_left _ hx), h3, ?_⟩
        intro k hk
        rcases h4 k hk with hk1 | ⟨hk1, hk2, hk3⟩
        · exact Or.inl hk1
        · exact Or.inr ⟨List.mem_cons_of_mem _ hk1,
            fun hv => hk2 (List.mem_append_left _ hv), hk3⟩
      | some paper =>
        simp only [hp]
        have hins : ∀ k ∈ (dictInsert f n (extract_paper_metadata paper)).map Prod.fst,
            k ∈ v ++ [n] := by
          intro k hk
          rcases (keys_dictInsert f n _ k).mp hk with hk' | rfl
          · exact List.mem_append_left _ (hf k hk')
          · exact List.mem_append_right _ (List.mem_singleton_self _)
        obtain ⟨h1, h2, h3, h4⟩ := ih ((g.add_edge c n).add_node n (some paper) "referenced")
          (v ++ [n]) (dictInsert f n (extract_paper_metadata paper)) hins
        refine ⟨by rw [h1, add_node_agent_path, add_edge_agent_path],
                fun x hx => h2 x (List.mem_append_left _ hx), h3, ?_⟩
        intro k hk
        rcases h4 k hk with hk1 | ⟨hk1, hk2, hk3⟩
        · rcases (keys_dictInsert f n _ k).mp hk1 with hk1' | rfl
          · exact Or.inl hk1'
          · exact Or.inr ⟨List.mem_cons_self _ _, hcond.1, hcond.2⟩
        · exact Or.inr ⟨List.mem_cons_of_mem _ hk1,
            fun hv => hk2 (List.mem_append_left _ hv), hk3⟩
    · rw [if_neg hcond]
      obtain ⟨h1, h2, h3, h4⟩ := ih (g.add_edge c n) v f hf
      refine ⟨by rw [h1, add_edge_agent_path], h2, h3, ?_⟩
      intro k hk
      rcases h4 k hk with hk1 | ⟨hk1, hk2, hk3⟩
      · exact Or.inl hk1
      · exact Or.inr ⟨List.mem_cons_of_mem _ hk1, hk2, hk3⟩

theorem initExpandLoop_inv (P : Provider) (a : NodeId) :
    ∀ (ns : List NodeId) (g : PaperGraph) (v : List NodeId) (f : List (NodeId × WebMeta)),
      (∀ k ∈ f.map Prod.fst, k ∈ v) →
      (initExpandLoop P a ns (g, v, f)).1.agent_path = g.agent_path ∧
      (∀ x ∈ v, x ∈ (initExpandLoop P a ns (g, v, f)).2.1) ∧
      (∀ k ∈ (initExpandLoop P a ns (g, v, f)).2.2.map Prod.fst,
        k ∈ (initExpandLoop P a ns (g, v, f)).2.1) ∧
      (∀ k ∈ (initExpandLoop P a ns (g, v, f)).2.2.map Prod.fst,
        k ∈ f.map Prod.fst ∨ (k ∈ ns ∧ k ∉ v)) := by
  intro ns
  induction ns with
  | nil =>
    intro g v f hf
    exact ⟨rfl, fun x hx => hx, hf, fun k hk => Or.inl hk⟩
  | cons n ns ih =>
    intro g v f hf
    simp only [initExpandLoop]
    by_cases hcond : n ∈ v
    · rw [if_pos hcond]
      obtain ⟨h1, h2, h3, h4⟩ := ih (g.add_edge a n) v f hf
      refine ⟨by rw [h1, add_edge_agent_path], h2, h3, ?_⟩
      intro k hk
      rcases h4 k hk with hk1 | ⟨hk1, hk2⟩
      · exact Or.inl hk1
      · exact Or.inr ⟨List.mem_cons_of_mem _ hk1, hk2⟩
    · rw [if_neg hcond]
      cases hp : P.getPaper n with
      | none =>
        simp only [hp]
        obtain ⟨h1, h2, h3, h4⟩ := ih (g.add_edge a n) (v ++ [n]) f
          (fun k hk => List.mem_append_left _ (hf k hk))
        refine ⟨by rw [h1, add_edge_agent_path],
                fun x hx => h2 x (List.mem_append_left _ hx), h3, ?_⟩
        intro k hk
        rcases h4 k hk with hk1 | ⟨hk1, hk2⟩
        · exact Or.inl hk1
        · exact Or.inr ⟨List.mem_cons_of_mem _ hk1,
            fun hv => hk2 (List.mem_append_left _ hv)⟩
      | some paper =>
        simp only [hp]
        have hins : ∀ k ∈ (dictInsert f n (extract_paper_metadata paper)).map Prod.fst,
            k ∈ v ++ [n] := by
          intro k hk
          rcases (keys_dictInsert f n _ k).mp hk with hk' | rfl
          · exact List.mem_append_left _ (hf k hk')
          · exact List.mem_append_right _ (List.mem_singleton_self _)
        obtain ⟨h1, h2, h3, h4⟩ := ih ((g.add_edge a n).add_node n (some paper) "referenced")
          (v ++ [n]) (dictInsert f n (extract_paper_metadata paper)) hins
        refine ⟨by rw [h1, add_node_agent_path, add_edge_agent_path],
                fun x hx => h2 x (List.mem_append_left _ hx), h3, ?_⟩
        intro k hk
        rcases h4 k hk with hk1 | ⟨hk1, hk2⟩
        · rcases (keys_dictInsert f n _ k).mp hk1 with hk1' | rfl
          · exact Or.inl hk1'
          · exact Or.inr ⟨List.mem_cons_self _ _, hcond⟩
        · exact Or.inr ⟨List.mem_cons_of_mem _ hk1,
            fun hv => hk2 (List.mem_append_left _ hv)⟩

theorem make_choice_inactive (P : Provider) (s : SessionState) (c : NodeId)
    (h : s.game_active = false) :
    make_choice P s c = (ChoiceResult.notActive, s) := by
  unfold make_choice
  rw [if_pos h]

theorem make_choice_invalid (P : Provider) (s : SessionState) (c : NodeId)
    (hact : s.game_active = true) (hmem : c ∉ s.frontier.map Prod.fst) :
    make_choice P s c = (ChoiceResult.invalidChoice, s) := by
  unfold make_choice
  rw [if_neg (by simp [hact]), if_pos hmem]

theorem make_choice_win_fields (P : Provider) (s : SessionState) (c : NodeId)
    (hact : s.game_active = true) (hc : c ∈ s.frontier.map Prod.fst)
    (hw : s.end_id ∈ P.getNeighbors c) :
    (make_choice P s c).1 = ChoiceResult.won (s.current_turn + 1) ∧
    (make_choice P s c).2.graph.agent_path = s.graph.agent_path ++ [c, s.end_id] ∧
    (make_choice P s c).2.frontier = s.frontier.filter (fun kv => decide (kv.1 ≠ c)) ∧
    (make_choice P s c).2.visited_nodes = s.visited_nodes ∧
    (make_choice P s c).2.current_turn = s.current_turn + 1 ∧
    (make_choice P s c).2.game_active = false ∧
    (make_choice P s c).2.end_id = s.end_id ∧
    (make_choice P s c).2.start_id = s.start_id ∧
    (make_choice P s c).2.max_turns = s.max_turns := by
  simp only [make_choice]
  rw [if_neg (by simp [hact]), if_neg (not_not_intro hc), if_pos hw]
  refine ⟨rfl, ?_, rfl, rfl, rfl, rfl, rfl, rfl, rfl⟩
  simp [setNodeType_agent_path]

theorem make_choice_nonwin_eq (P : Provider) (s : SessionState) (c : NodeId)
    (hact : s.game_active = true) (hc : c ∈ s.frontier.map Prod.fst)
    (hnw : s.end_id ∉ P.getNeighbors c)
    (gvf : PaperGraph × List NodeId × List (NodeId × WebMeta))
    (hgvf : gvf = choiceExpandLoop P s.end_id c (P.getNeighbors c)
      (({ s.graph with agent_path := s.graph.agent_path ++ [c] }).setNodeType c "agent_path",
       s.visited_nodes, s.frontier.filter (fun kv => decide (kv.1 ≠ c)))) :
    make_choice P s c =
      ((if s.current_turn + 1 ≥ s.max_turns then ChoiceResult.turnLimit (s.current_turn + 1)
        else if gvf.2.2.isEmpty then ChoiceResult.exhausted (s.current_turn + 1)
        else ChoiceResult.continueGame (s.current_turn + 1)),
       { s with graph := gvf.1, visited_nodes := gvf.2.1, frontier := gvf.2.2,
                current_turn := s.current_turn + 1,
                game_active := if s.current_turn + 1 ≥ s.max_turns then false
                               else if gvf.2.2.isEmpty then false else true }) := by
  simp only [make_choice]
  rw [if_neg (by simp [hact]), if_neg (not_not_intro hc), if_neg hnw, ← hgvf]
  by_cases h1 : s.current_turn + 1 ≥ s.max_turns
  · simp [h1]
  · by_cases h2 : gvf.2.2.isEmpty
    · simp [h1, h2]
    · simp [h1, h2]

theorem choiceExpandLoop_agent_path (P : Provider) (e c : NodeId) :
    ∀ (ns : List NodeId) (g : PaperGraph) (v : List NodeId) (f : List (NodeId × WebMeta)),
      (choiceExpandLoop P e c ns (g, v, f)).1.agent_path = g.agent_path := by
  intro ns
  induction ns with
  | nil => intro g v f; rfl
  | cons n ns ih =>
    intro g v f
    simp only [choiceExpandLoop]
    by_cases hcond : n ∉ v ∧ n ≠ e
    · rw [if_pos hcond]
      cases hp : P.getPaper n with
      | none =>
        simp only [hp]
        rw [ih, add_edge_agent_path]
      | some paper =>
        simp only [hp]
        rw [ih, add_node_agent_path, add_edge_agent_path]
    · rw [if_neg hcond]
      rw [ih, add_edge_agent_path]

theorem initialize_game_spec (P : Provider) (a b : NodeId) (mt : Nat) :
    (initialize_game P a b mt).2.start_id = a ∧
    (initialize_game P a b mt).2.end_id = b ∧
    (initialize_game P a b mt).2.max_turns = mt ∧
    (initialize_game P a b mt).2.current_turn = 0 ∧
    (initialize_game P a b mt).2.game_active = true ∧
    (((initialize_game P a b mt).1 = false ∧
      (initialize_game P a b mt).2.frontier = [] ∧
      (initialize_game P a b mt).2.graph.agent_path = []) ∨
     ((initialize_game P a b mt).1 = true ∧
      (initialize_game P a b mt).2.graph.agent_path = [a] ∧
      a ∈ (initialize_game P a b mt).2.visited_nodes ∧
      (∀ k ∈ (initialize_game P a b mt).2.frontier.map Prod.fst,
        k ∈ (initialize_game P a b mt).2.visited_nodes) ∧
      (∀ k ∈ (initialize_game P a b mt).2.frontier.map Prod.fst,
        k ∈ P.getNeighbors a ∧ k ≠ a))) := by
  simp only [initialize_game]
  cases hsp : P.getPaper a with
  | none =>
    simp only [hsp]
    refine ⟨?_, ?_, ?_, ?_, ?_, Or.inl ⟨?_, ?_, ?_⟩⟩ <;> trivial
  | some sp =>
    cases hep : P.getPaper b with
    | none =>
      simp only [hsp, hep]
      refine ⟨?_, ?_, ?_, ?_, ?_, Or.inl ⟨?_, ?_, ?_⟩⟩ <;> trivial
    | some ep =>
      simp only [hsp, hep]
      refine ⟨by trivial, by trivial, by trivial, by trivial, by trivial,
        Or.inr ⟨by trivial, ?_⟩⟩
      by_cases hni : (((P.getNeighbors a).filter (fun n => decide (n ∉ ([a] : List NodeId)))).isEmpty : Bool)
      · rw [if_pos hni]
        refine ⟨by simp [add_node_agent_path, PaperGraph.empty], List.mem_singleton_self _,
          ?_, ?_⟩ <;> intro k hk <;> simp at hk
      · rw [if_neg hni]
        obtain ⟨h1, h2, h3, h4⟩ := initExpandLoop_inv P a (P.getNeighbors a)
          ({ (PaperGraph.empty.add_node a (some sp) "start").add_node b (some ep) "end" with
             agent_path := (((PaperGraph.empty.add_node a (some sp) "start").add_node b
               (some ep) "end").agent_path ++ [a]) })
          [a] [] (by intro k hk; simp at hk)
        refine ⟨by rw [h1]; simp [add_node_agent_path, PaperGraph.empty],
          h2 a (List.mem_singleton_self _), h3, ?_⟩
        intro k hk
        rcases h4 k hk with hk1 | ⟨hk1, hk2⟩
        · simp at hk1
        · exact ⟨hk1, by simpa using hk2⟩

theorem reachable_inv (P : Provider) (a b : NodeId) (mt : Nat)
    (hnb : b ∉ P.getNeighbors a) :
    ∀ s, Reachable P a b mt s →
      s.end_id = b ∧
      (∀ k ∈ s.frontier.map Prod.fst, k ∈ s.visited_nodes) ∧
      b ∉ s.frontier.map Prod.fst ∧
      (∀ x ∈ s.graph.agent_path, x ∈ s.visited_nodes ∨ x = b) ∧
      (∀ k ∈ s.frontier.map Prod.fst, k ∉ s.graph.agent_path) := by
  intro s hr
  induction hr with
  | init =>
    obtain ⟨hstart, hend, hmax, hturn, hact, hcase⟩ := initialize_game_spec P a b mt
    rcases hcase with ⟨_, hf, hp⟩ | ⟨_, hp, hav, hfv, hfk⟩
    · refine ⟨hend, ?_, ?_, ?_, ?_⟩ <;> simp [hf, hp]
    · refine ⟨hend, hfv, ?_, ?_, ?_⟩
      · intro hb
        exact hnb (hfk b hb).1
      · intro x hx
        rw [hp] at hx
        rcases List.mem_singleton.mp hx with rfl
        exact Or.inl hav
      · intro k hk
        rw [hp]
        intro hmem
        rcases List.mem_singleton.mp hmem with rfl
        exact (hfk k hk).2 rfl
  | step s c hs ih =>
    obtain ⟨hend, hfv, hef, hpv, hdf⟩ := ih
    by_cases hact : s.game_active = true
    · by_cases hc : c ∈ s.frontier.map Prod.fst
      · by_cases hw : s.end_id ∈ P.getNeighbors c
        · -- winning step
          obtain ⟨_, hpath, hfront, hvis, _, _, hend', _, _⟩ :=
            make_choice_win_fields P s c hact hc hw
          rw [hend] at hpath
          refine ⟨by rw [hend', hend], ?_, ?_, ?_, ?_⟩
          · intro k hk
            rw [hfront] at hk
            rw [hvis]
            exact hfv k ((mem_keys_filter _ _ _).mp hk).1
          · rw [hfront]
            intro hb
            exact hef ((mem_keys_filter _ _ _).mp hb).1
          · intro x hx
            rw [hpath] at hx
            rw [hvis]
            rcases List.mem_append.mp hx with hx1 | hx2
            · exact hpv x hx1
            · rcases List.mem_cons.mp hx2 with rfl | hx3
              · exact Or.inl (hfv _ hc)
              · rcases List.mem_singleton.mp hx3 with rfl
                exact Or.inr rfl
          · intro k hk
            rw [hfront] at hk
            obtain ⟨hk1, hk2⟩ := (mem_keys_filter _ _ _).mp hk
            rw [hpath]
            intro hmem
            rcases List.mem_append.mp hmem with hm1 | hm2
            · exact hdf k hk1 hm1
            · rcases List.mem_cons.mp hm2 with rfl | hm3
              · exact hk2 rfl
              · rcases List.mem_singleton.mp hm3 with rfl
                exact hef hk1
        · -- non-winning step
          have hchar := make_choice_nonwin_eq P s c hact hc hw _ rfl
          rw [hchar]
          have hfil : ∀ k ∈ (s.frontier.filter (fun kv => decide (kv.1 ≠ c))).map Prod.fst,
              k ∈ s.visited_nodes :=
            fun k hk => hfv k ((mem_keys_filter _ _ _).mp hk).1
          obtain ⟨h1, h2, h3, h4⟩ := choiceExpandLoop_inv P s.end_id c (P.getNeighbors c)
            (({ s.graph with agent_path := s.graph.agent_path ++ [c] }).setNodeType c
              "agent_path")
            s.visited_nodes (s.frontier.filter (fun kv => decide (kv.1 ≠ c))) hfil
          have hpath : (choiceExpandLoop P s.end_id c (P.getNeighbors c)
              (({ s.graph with agent_path := s.graph.agent_path ++ [c] }).setNodeType c
                "agent_path",
               s.visited_nodes,
               s.frontier.filter (fun kv => decide (kv.1 ≠ c)))).1.agent_path
              = s.graph.agent_path ++ [c] := by
            rw [h1, setNodeType_agent_path]
          refine ⟨hend, h3, ?_, ?_, ?_⟩
          · intro hb
            rcases h4 b hb with hb1 | ⟨hb1, _, hb3⟩
            · exact hef ((mem_keys_filter _ _ _).mp hb1).1
            · rw [hend] at hb3
              exact hb3 rfl
          · intro x hx
            rw [hpath] at hx
            rcases List.mem_append.mp hx with hx1 | hx2
            · rcases hpv x hx1 with h | h
              · exact Or.inl (h2 x h)
              · exact Or.inr h
            · rcases List.mem_singleton.mp hx2 with rfl
              exact Or.inl (h2 _ (hfv _ hc))
          · intro k hk
            rw [hpath]
            intro hmem
            rcases h4 k hk with hk1 | ⟨_, hk2, hk3⟩
            · obtain ⟨hk1', hk1c⟩ := (mem_keys_filter _ _ _).mp hk1
              rcases List.mem_append.mp hmem with hm1 | hm2
              · exact hdf k hk1' hm1
              · rcases List.mem_singleton.mp hm2 with rfl
                exact hk1c rfl
            · rcases List.mem_append.mp hmem with hm1 | hm2
              · rcases hpv k hm1 with h | h
                · exact hk2 h
                · rw [hend] at hk3
                  exact hk3 h
              · rcases List.mem_singleton.mp hm2 with rfl
                exact hk2 (hfv _ hc)
      · rw [make_choice_invalid P s c hact hc]
        exact ⟨hend, hfv, hef, hpv, hdf⟩
    · rw [make_choice_inactive P s c (Bool.not_eq_true _ ▸ hact)]
      exact ⟨hend, hfv, hef, hpv, hdf⟩

/-! ### BFS invariant lemmas -/

theorem head?_append_of_ne_nil {α : Type} (l l' : List α) (h : l ≠ []) :
    (l ++ l').head? = l.head? := by
  cases l with
  | nil => exact absurd rfl h
  | cons a t => rfl

theorem ne_nil_of_head?_eq_some {α : Type} {l : List α} {a : α} (h : l.head? = some a) :
    l ≠ [] := by
  intro hnil
  rw [hnil] at h
  exact Option.noConfusion h

theorem reachWithin_self (nbrs : NodeId → List NodeId) :
    ∀ (m : Nat) (r : NodeId), r ∈ reachWithin nbrs m r := by
  intro m r
  cases m with
  | zero => exact List.mem_singleton_self r
  | succ n => exact List.mem_cons_self r _

theorem reachWithin_cons (nbrs : NodeId → List NodeId) {m : Nat} {r n x : NodeId}
    (hn : n ∈ nbrs r) (hx : x ∈ reachWithin nbrs m n) :
    x ∈ reachWithin nbrs (m + 1) r := by
  simp only [reachWithin]
  exact List.mem_cons_of_mem _ (List.mem_flatMap.mpr ⟨n, hn, hx⟩)

theorem reachWithin_succ (nbrs : NodeId → List NodeId) :
    ∀ (m : Nat) (r x : NodeId), x ∈ reachWithin nbrs m r → x ∈ reachWithin nbrs (m + 1) r := by
  intro m
  induction m with
  | zero =>
    intro r x hx
    rcases List.mem_singleton.mp hx with rfl
    exact reachWithin_self nbrs 1 _
  | succ n ih =>
    intro r x hx
    simp only [reachWithin] at hx
    rcases List.mem_cons.mp hx with rfl | hx'
    · exact reachWithin_self nbrs _ x
    · rcases List.mem_flatMap.mp hx' with ⟨y, hy, hxy⟩
      exact reachWithin_cons nbrs hy (ih y x hxy)

theorem reachWithin_mono (nbrs : NodeId → List NodeId) {m m' : Nat} {r x : NodeId}
    (h : m ≤ m') (hx : x ∈ reachWithin nbrs m r) : x ∈ reachWithin nbrs m' r := by
  induction m' with
  | zero =>
    have : m = 0 := Nat.le_zero.mp h
    rw [this] at hx
    exact hx
  | succ n ih =>
    rcases Nat.lt_or_ge m (n + 1) with h1 | h1
    · exact reachWithin_succ nbrs n r x (ih (Nat.lt_succ_iff.mp h1))
    · have : m = n + 1 := Nat.le_antisymm h h1
      rw [this] at hx
      exact hx

theorem reachWithin_step (nbrs : NodeId → List NodeId) :
    ∀ (m : Nat) (r x y : NodeId), x ∈ reachWithin nbrs m r → y ∈ nbrs x →
      y ∈ reachWithin nbrs (m + 1) r := by
  intro m
  induction m with
  | zero =>
    intro r x y hx hy
    rcases List.mem_singleton.mp hx with rfl
    exact reachWithin_cons nbrs hy (reachWithin_self nbrs 0 y)
  | succ n ih =>
    intro r x y hx hy
    simp only [reachWithin] at hx
    rcases List.mem_cons.mp hx with rfl | hx'
    · exact reachWithin_cons nbrs hy (reachWithin_mono nbrs (Nat.le_add_left 0 (n + 1))
        (reachWithin_self nbrs 0 y))
    · rcases List.mem_flatMap.mp hx' with ⟨z, hz, hxz⟩
      exact reachWithin_cons nbrs hz (ih z x y hxz hy)

theorem chain_reachWithin (nbrs : NodeId → List NodeId) :
    ∀ (p : List NodeId) (r k : NodeId), p.head? = some r → p.getLast? = some k →
      List.Chain' (fun x y => y ∈ nbrs x) p → k ∈ reachWithin nbrs (p.length - 1) r := by
  intro p
  induction p with
  | nil => intro r k h; exact absurd h (by simp)
  | cons x t ih =>
    intro r k hh hl hc
    rcases Option.some_inj.mp hh with rfl
    cases t with
    | nil =>
      rcases Option.some_inj.mp hl with rfl
      exact reachWithin_self nbrs 0 x
    | cons y t' =>
      have hy : y ∈ nbrs x := (List.chain'_cons.mp hc).1
      have hc' : List.Chain' (fun a b => b ∈ nbrs a) (y :: t') := (List.chain'_cons.mp hc).2
      have hl' : (y :: t').getLast? = some k := by
        rw [show (x :: y :: t') = [x] ++ (y :: t') by rfl] at hl
        rw [← List.getLast?_append_of_ne_nil [x] (List.cons_ne_nil y t')]
        exact hl
      have := ih y k rfl hl' hc'
      have hres := reachWithin_cons nbrs hy this
      simpa using hres

theorem vkeys_append (v w : VMap) : vkeys (v ++ w) = vkeys v ++ vkeys w :=
  List.map_append _ v w

theorem vlookup_append_left (w : VMap) :
    ∀ (v : VMap) (k : NodeId), k ∈ vkeys v → vlookup (v ++ w) k = vlookup v k := by
  intro v
  induction v with
  | nil => intro k hk; simp [vkeys] at hk
  | cons kv rest ih =>
    intro k hk
    simp only [List.cons_append, vlookup]
    by_cases h : kv.1 = k
    · rw [if_pos h, if_pos h]
    · rw [if_neg h, if_neg h]
      apply ih
      rcases List.mem_cons.mp hk with h1 | h1
      · exact absurd h1.symm h
      · exact h1

theorem vlookup_mem :
    ∀ (v : VMap) (k : NodeId), k ∈ vkeys v → (k, vlookup v k) ∈ v := by
  intro v
  induction v with
  | nil => intro k hk; simp [vkeys] at hk
  | cons kv rest ih =>
    intro k hk
    simp only [vlookup]
    by_cases h : kv.1 = k
    · rw [if_pos h]
      subst h
      exact List.mem_cons_self _ _
    · rw [if_neg h]
      apply List.mem_cons_of_mem
      apply ih
      rcases List.mem_cons.mp hk with h1 | h1
      · exact absurd h1.symm h
      · exact h1

theorem SideWF.mono {nbrs : NodeId → List NodeId} {root : NodeId} {m m' : Nat} {v : VMap}
    (h : SideWF nbrs root m v) (hm : m ≤ m') : SideWF nbrs root m' v :=
  ⟨h.head, h.last, h.chain, h.nodup, h.elems, fun kp hkp => le_trans (h.len kp hkp) hm⟩

theorem SideWF.singleton (nbrs : NodeId → List NodeId) (r : NodeId) :
    SideWF nbrs r 1 [(r, [r])] := by
  refine ⟨?_, ?_, ?_, ?_, ?_, ?_⟩ <;> intro kp hkp <;>
    rcases List.mem_singleton.mp hkp with rfl <;> simp [vkeys]

theorem SideWF.insert {nbrs : NodeId → List NodeId} {root : NodeId} {m : Nat} {v : VMap}
    (h : SideWF nbrs root m v) {path : List NodeId} {cur n : NodeId} {l : Nat}
    (hph : path.head? = some root) (hpl : path.getLast? = some cur)
    (hpc : List.Chain' (fun x y => y ∈ nbrs x) path) (hpn : path.Nodup)
    (hpe : ∀ x ∈ path, x ∈ vkeys v) (hplen : path.length ≤ l) (hlm : l + 1 ≤ m)
    (hnv : n ∉ vkeys v) (hnn : n ∈ nbrs cur) :
    SideWF nbrs root m (v ++ [(n, path ++ [n])]) := by
  have hpne : path ≠ [] := ne_nil_of_head?_eq_some hph
  have hkeys : ∀ x, x ∈ vkeys v → x ∈ vkeys (v ++ [(n, path ++ [n])]) := by
    intro x hx
    rw [vkeys_append]
    exact List.mem_append_left _ hx
  refine ⟨?_, ?_, ?_, ?_, ?_, ?_⟩ <;> intro kp hkp <;>
    rcases List.mem_append.mp hkp with hold | hnew
  · exact h.head kp hold
  · rcases List.mem_singleton.mp hnew with rfl
    rw [head?_append_of_ne_nil _ _ hpne]
    exact hph
  · exact h.last kp hold
  · rcases List.mem_singleton.mp hnew with rfl
    exact List.getLast?_concat _
  · exact h.chain kp hold
  · rcases List.mem_singleton.mp hnew with rfl
    refine List.chain'_append.mpr ⟨hpc, List.chain'_singleton _, ?_⟩
    intro x hx y hy
    rw [hpl] at hx
    rcases Option.some_inj.mp (Option.mem_def.mp hx).symm with rfl
    rcases Option.some_inj.mp (Option.mem_def.mp hy).symm with rfl
    exact hnn
  · exact h.nodup kp hold
  · rcases List.mem_singleton.mp hnew with rfl
    refine List.Nodup.append hpn (List.nodup_singleton _) ?_
    intro x hx hx'
    rcases List.mem_singleton.mp hx' with rfl
    exact hnv (hpe x hx)
  · intro x hx
    exact hkeys x (h.elems kp hold x hx)
  · rcases List.mem_singleton.mp hnew with rfl
    intro x hx
    rcases List.mem_append.mp hx with hx1 | hx2
    · exact hkeys x (hpe x hx1)
    · rcases List.mem_singleton.mp hx2 with rfl
      rw [vkeys_append]
      exact List.mem_append_right _ (List.mem_singleton_self _)
  · exact le_trans (h.len kp hold) (le_refl m)
  · rcases List.mem_singleton.mp hnew with rfl
    rw [List.length_append, List.length_singleton]
    omega

theorem bfs_scan_spec (nbrs : NodeId → List NodeId) (backward : Bool) (rs ro : NodeId)
    (mo ms l : Nat) (vother : VMap) (ho : SideWF nbrs ro mo vother)
    (cur : NodeId) (path : List NodeId)
    (hph : path.head? = some rs) (hpl : path.getLast? = some cur)
    (hpc : List.Chain' (fun x y => y ∈ nbrs x) path) (hpn : path.Nodup)
    (hplen : path.length ≤ l) (hlm : l + 1 ≤ ms) :
    ∀ (ns : List NodeId) (v : VMap) (acc : List NodeId),
      (∀ n ∈ ns, n ∈ nbrs cur) →
      SideWF nbrs rs ms v →
      (∀ x ∈ path, x ∈ vkeys v) →
      (∀ x, x ∈ vkeys v → x ∉ vkeys vother) →
      (∀ x ∈ acc, x ∈ vkeys v) →
      (∃ w, (bfs_scan backward vother path ns v acc).2.1 = v ++ w) ∧
      SideWF nbrs rs ms (bfs_scan backward vother path ns v acc).2.1 ∧
      (∀ x, x ∈ vkeys (bfs_scan backward vother path ns v acc).2.1 → x ∉ vkeys vother) ∧
      (∀ x ∈ (bfs_scan backward vother path ns v acc).2.2,
        x ∈ vkeys (bfs_scan backward vother path ns v acc).2.1) ∧
      (∀ p, (bfs_scan backward vother path ns v acc).1 = some p →
        p.length ≤ l + mo ∧
        StitchedPath nbrs (if backward then ro else rs) (if backward then rs else ro) p ∧
        ∃ x, x ∈ reachWithin nbrs l rs ∧ x ∈ reachWithin nbrs (mo - 1) ro) := by
  have hpne : path ≠ [] := ne_nil_of_head?_eq_some hph
  intro ns
  induction ns with
  | nil =>
    intro v acc _ hv hpe hdisj hacc
    exact ⟨⟨[], (List.append_nil v).symm⟩, hv, hdisj, hacc,
      fun p hp => Option.noConfusion hp⟩
  | cons n ns ih =>
    intro v acc hns hv hpe hdisj hacc
    simp only [bfs_scan]
    by_cases h1 : n ∈ vkeys vother
    · rw [if_pos h1]
      have hnn : n ∈ nbrs cur := hns n (List.mem_cons_self _ _)
      have hpo_mem : (n, vlookup vother n) ∈ vother := vlookup_mem vother n h1
      refine ⟨⟨[], (List.append_nil v).symm⟩, hv, hdisj, hacc, ?_⟩
      intro p hp
      have hp' : (if backward then vlookup vother n ++ path.reverse
          else path ++ (vlookup vother n).reverse) = p := Option.some_inj.mp hp
      subst hp'
      have hpo_head : (vlookup vother n).head? = some ro := ho.head _ hpo_mem
      have hpo_last : (vlookup vother n).getLast? = some n := ho.last _ hpo_mem
      have hpo_chain : List.Chain' (fun x y => y ∈ nbrs x) (vlookup vother n) :=
        ho.chain _ hpo_mem
      have hpo_nodup : (vlookup vother n).Nodup := ho.nodup _ hpo_mem
      have hpo_len : (vlookup vother n).length ≤ mo := ho.len _ hpo_mem
      have hpo_ne : vlookup vother n ≠ [] := ne_nil_of_head?_eq_some hpo_head
      have hnpath : n ∉ path := fun hmem => hdisj n (hpe n hmem) h1
      obtain ⟨z, trev, hzt⟩ := List.exists_cons_of_ne_nil
        (show (vlookup vother n).reverse ≠ [] by
          intro hrev
          rw [List.reverse_eq_nil_iff] at hrev
          exact hpo_ne hrev)
      have hz : z = n := by
        have h3 : (vlookup vother n).reverse.head? = some z := by rw [hzt]; rfl
        rw [List.head?_reverse, hpo_last] at h3
        exact (Option.some_inj.mp h3).symm
      rw [hz] at hzt
      have hnmem : n ∈ vlookup vother n := by
        rw [← List.mem_reverse, hzt]
        exact List.mem_cons_self _ _
      have hreach : ∃ x, x ∈ reachWithin nbrs l rs ∧ x ∈ reachWithin nbrs (mo - 1) ro := by
        refine ⟨n, ?_, ?_⟩
        · have hcur := chain_reachWithin nbrs path rs cur hph hpl hpc
          have hstep := reachWithin_step nbrs _ rs cur n hcur hnn
          have hle : path.length - 1 + 1 ≤ l := by
            have : 1 ≤ path.length := List.length_pos.mpr hpne
            omega
          exact reachWithin_mono nbrs hle hstep
        · have := chain_reachWithin nbrs (vlookup vother n) ro n hpo_head hpo_last hpo_chain
          exact reachWithin_mono nbrs (Nat.sub_le_sub_right hpo_len 1) this
      cases backward with
      | false =>
        refine ⟨?_, ?_, hreach⟩
        · show (path ++ (vlookup vother n).reverse).length ≤ l + mo
          rw [List.length_append, List.length_reverse]
          omega
        · show StitchedPath nbrs rs ro (path ++ (vlookup vother n).reverse)
          refine ⟨path, trev, n, by rw [hzt], ?_, ?_, ?_, ?_, ?_⟩
          · rw [head?_append_of_ne_nil _ _ hpne]
            exact hph
          · rw [← hzt, List.getLast?_reverse]
            exact hpo_head
          · refine List.chain'_append.mpr ⟨hpc, List.chain'_singleton _, ?_⟩
            intro x hx y hy
            rw [hpl] at hx
            rcases Option.some_inj.mp (Option.mem_def.mp hx).symm with rfl
            rcases Option.some_inj.mp (Option.mem_def.mp hy).symm with rfl
            exact hnn
          · rw [← hzt]
            exact List.chain'_reverse.mpr hpo_chain
          · rw [List.count_append, List.count_reverse,
              List.count_eq_zero.mpr hnpath, List.count_eq_one_of_mem hpo_nodup hnmem]
      | true =>
        have hporev : vlookup vother n = trev.reverse ++ [n] := by
          rw [← List.reverse_reverse (vlookup vother n), hzt]
          simp
        refine ⟨?_, ?_, hreach⟩
        · show (vlookup vother n ++ path.reverse).length ≤ l + mo
          rw [List.length_append, List.length_reverse]
          omega
        · show StitchedPath nbrs ro rs (vlookup vother n ++ path.reverse)
          refine ⟨trev.reverse, path.reverse, n, ?_, ?_, ?_, ?_, ?_, ?_⟩
          · rw [hporev, List.append_assoc, List.singleton_append]
          · rw [← hporev]
            exact hpo_head
          · rw [show (n :: path.reverse) = [n] ++ path.reverse by rfl,
              List.getLast?_append_of_ne_nil _ (show path.reverse ≠ [] by
                intro hrev
                rw [List.reverse_eq_nil_iff] at hrev
                exact hpne hrev),
              List.getLast?_reverse]
            exact hph
          · rw [← hporev]
            exact hpo_chain
          · refine List.chain'_cons'.mpr ⟨?_, List.chain'_reverse.mpr hpc⟩
            intro y hy
            rw [List.head?_reverse, hpl] at hy
            rcases Option.some_inj.mp (Option.mem_def.mp hy).symm with rfl
            exact hnn
          · rw [List.count_append, List.count_reverse,
              List.count_eq_zero.mpr hnpath, List.count_eq_one_of_mem hpo_nodup hnmem]
    · rw [if_neg h1]
      by_cases h2 : n ∈ vkeys v
      · rw [if_pos h2]
        exact ih v acc (fun x hx => hns x (List.mem_cons_of_mem _ hx)) hv hpe hdisj hacc
      · rw [if_neg h2]
        have hnn : n ∈ nbrs cur := hns n (List.mem_cons_self _ _)
        have hv' : SideWF nbrs rs ms (v ++ [(n, path ++ [n])]) :=
          SideWF.insert hv hph hpl hpc hpn hpe hplen hlm h2 hnn
        have hkeys' : ∀ x, x ∈ vkeys (v ++ [(n, path ++ [n])]) →
            x ∈ vkeys v ∨ x = n := by
          intro x hx
          rw [vkeys_append] at hx
          rcases List.mem_append.mp hx with hx1 | hx2
          · exact Or.inl hx1
          · exact Or.inr (List.mem_singleton.mp hx2)
        obtain ⟨⟨w, hw⟩, c2, c3, c4, c5⟩ := ih (v ++ [(n, path ++ [n])]) (acc ++ [n])
          (fun x hx => hns x (List.mem_cons_of_mem _ hx)) hv'
          (fun x hx => by rw [vkeys_append]; exact List.mem_append_left _ (hpe x hx))
          (by
            intro x hx
            rcases hkeys' x hx with hx1 | rfl
            · exact hdisj x hx1
            · exact h1)
          (by
            intro x hx
            rw [vkeys_append]
            rcases List.mem_append.mp hx with hx1 | hx2
            · exact List.mem_append_left _ (hacc x hx1)
            · rcases List.mem_singleton.mp hx2 with rfl
              exact List.mem_append_right _ (by simp [vkeys]))
        refine ⟨⟨[(n, path ++ [n])] ++ w, by rw [hw, List.append_assoc]⟩, c2, c3, c4, c5⟩

theorem bfs_process_spec (nbrs : NodeId → List NodeId) (backward : Bool) (rs ro : NodeId)
    (mo m : Nat) (vother : VMap) (ho : SideWF nbrs ro mo vother) :
    ∀ (pend : List NodeId) (v : VMap) (acc : List NodeId) (cnt : Nat),
      SideWF nbrs rs (m + 1) v →
      (∀ x ∈ pend, x ∈ vkeys v ∧ (vlookup v x).length ≤ m) →
      (∀ x, x ∈ vkeys v → x ∉ vkeys vother) →
      (∀ x ∈ acc, x ∈ vkeys v) →
      SideWF nbrs rs (m + 1) (bfs_process nbrs backward vother pend v acc cnt).2.1 ∧
      (∀ x, x ∈ vkeys (bfs_process nbrs backward vother pend v acc cnt).2.1 →
        x ∉ vkeys vother) ∧
      (∀ x ∈ (bfs_process nbrs backward vother pend v acc cnt).2.2.1,
        x ∈ vkeys (bfs_process nbrs backward vother pend v acc cnt).2.1) ∧
      (∀ p, (bfs_process nbrs backward vother pend v acc cnt).1 = some p →
        p.length ≤ m + mo ∧
        StitchedPath nbrs (if backward then ro else rs) (if backward then rs else ro) p ∧
        ∃ x, x ∈ reachWithin nbrs m rs ∧ x ∈ reachWithin nbrs (mo - 1) ro) := by
  intro pend
  induction pend with
  | nil =>
    intro v acc cnt hv _ hdisj hacc
    exact ⟨hv, hdisj, hacc, fun p hp => Option.noConfusion hp⟩
  | cons cur pend ih =>
    intro v acc cnt hv hpend hdisj hacc
    have hcur := hpend cur (List.mem_cons_self _ _)
    have hstored : (cur, vlookup v cur) ∈ v := vlookup_mem v cur hcur.1
    obtain ⟨⟨w, hw⟩, c2, c3, c4, c5⟩ := bfs_scan_spec nbrs backward rs ro mo (m + 1) m
      vother ho cur (vlookup v cur) (hv.head _ hstored) (hv.last _ hstored)
      (hv.chain _ hstored) (hv.nodup _ hstored) hcur.2 (le_refl (m + 1))
      (nbrs cur) v acc (fun _ h => h) hv (hv.elems _ hstored) hdisj hacc
    simp only [bfs_process]
    cases hr : (bfs_scan backward vother (vlookup v cur) (nbrs cur) v acc).1 with
    | some p =>
      simp only [hr]
      exact ⟨c2, c3, c4, fun q hq => by
        rcases Option.some_inj.mp hq with rfl
        exact c5 p hr⟩
    | none =>
      simp only [hr]
      apply ih
      · exact c2
      · intro x hx
        have hx' := hpend x (List.mem_cons_of_mem _ hx)
        constructor
        · rw [hw, vkeys_append]
          exact List.mem_append_left _ hx'.1
        · rw [hw, vlookup_append_left w v x hx'.1]
          exact hx'.2
      · exact c3
      · exact c4

theorem bfs_step_spec (nbrs : NodeId → List NodeId) (backward : Bool) (rs ro : NodeId)
    (mo m : Nat) (vother : VMap) (ho : SideWF nbrs ro mo vother)
    (queue : List NodeId) (vself : VMap) (cnt : Nat)
    (hv : SideWF nbrs rs (m + 1) vself)
    (hq : ∀ x ∈ queue, x ∈ vkeys vself ∧ (vlookup vself x).length ≤ m)
    (hdisj : ∀ x, x ∈ vkeys vself → x ∉ vkeys vother) :
    SideWF nbrs rs (m + 1) (bfs_step nbrs backward queue vself vother cnt).2.1 ∧
    (∀ x, x ∈ vkeys (bfs_step nbrs backward queue vself vother cnt).2.1 →
      x ∉ vkeys vother) ∧
    (∀ x ∈ (bfs_step nbrs backward queue vself vother cnt).2.2.1,
      x ∈ vkeys (bfs_step nbrs backward queue vself vother cnt).2.1) ∧
    (∀ p, (bfs_step nbrs backward queue vself vother cnt).1 = some p →
      p.length ≤ m + mo ∧
      StitchedPath nbrs (if backward then ro else rs) (if backward then rs else ro) p ∧
      ∃ x, x ∈ reachWithin nbrs m rs ∧ x ∈ reachWithin nbrs (mo - 1) ro) := by
  unfold bfs_step
  by_cases hemp : queue.isEmpty
  · rw [if_pos hemp]
    refine ⟨hv, hdisj, ?_, fun p hp => Option.noConfusion hp⟩
    intro x hx
    rw [List.isEmpty_iff.mp hemp] at hx
    exact absurd hx (List.not_mem_nil x)
  · rw [if_neg hemp]
    exact bfs_process_spec nbrs backward rs ro mo m vother ho queue vself [] cnt hv hq hdisj
      (fun x hx => absurd hx (List.not_mem_nil x))

theorem bfs_loop_spec (nbrs : NodeId → List NodeId) (a b : NodeId) :
    ∀ (fuel m : Nat) (qf : List NodeId) (vf : VMap) (qb : List NodeId) (vb : VMap)
      (cnt : Nat),
      SideWF nbrs a m vf → SideWF nbrs b m vb →
      (∀ x ∈ qf, x ∈ vkeys vf ∧ (vlookup vf x).length ≤ m) →
      (∀ x ∈ qb, x ∈ vkeys vb ∧ (vlookup vb x).length ≤ m) →
      (∀ x, x ∈ vkeys vf → x ∉ vkeys vb) →
      1 ≤ m →
      ∀ p, (bfs_loop nbrs fuel qf vf qb vb cnt).1 = some p →
        p.length ≤ 2 * (m + fuel) - 1 ∧ StitchedPath nbrs a b p ∧
        ∃ x, x ∈ reachWithin nbrs (m + fuel - 1) a ∧ x ∈ reachWithin nbrs (m + fuel - 1) b := by
  intro fuel
  induction fuel with
  | zero =>
    intro m qf vf qb vb cnt _ _ _ _ _ _ p hp
    exact Option.noConfusion hp
  | succ fuel ih =>
    intro m qf vf qb vb cnt hvf hvb hqf hqb hdisj hm p hp
    simp only [bfs_loop] at hp
    obtain ⟨f2, f3, f4, f5⟩ := bfs_step_spec nbrs false a b m m vb
      hvb qf vf cnt (hvf.mono (Nat.le_succ m)) hqf
      (fun x hx hx' => hdisj x hx hx')
    cases hrf : (bfs_step nbrs false qf vf vb cnt).1 with
    | some q =>
      rw [hrf] at hp
      obtain rfl : q = p := Option.some_inj.mp hp
      obtain ⟨hlen, hst, x, hx1, hx2⟩ := f5 _ hrf
      refine ⟨by omega, hst, x, ?_, ?_⟩
      · exact reachWithin_mono nbrs (by omega) hx1
      · exact reachWithin_mono nbrs (by omega) hx2
    | none =>
      rw [hrf] at hp
      obtain ⟨g2, g3, g4, g5⟩ := bfs_step_spec nbrs true b a (m + 1) m
        (bfs_step nbrs false qf vf vb cnt).2.1 f2 qb vb
        (bfs_step nbrs false qf vf vb cnt).2.2.2 (hvb.mono (Nat.le_succ m)) hqb
        (fun x hx hx' => f3 x hx' hx)
      cases hrb : (bfs_step nbrs true qb vb (bfs_step nbrs false qf vf vb cnt).2.1
          (bfs_step nbrs false qf vf vb cnt).2.2.2).1 with
      | some q =>
        rw [hrb] at hp
        obtain rfl : q = p := Option.some_inj.mp hp
        obtain ⟨hlen, hst, x, hx1, hx2⟩ := g5 _ hrb
        refine ⟨by omega, hst, x, ?_, ?_⟩
        · exact reachWithin_mono nbrs (by omega) hx2
        · exact reachWithin_mono nbrs (by omega) hx1
      | none =>
        rw [hrb] at hp
        have hres := ih (m + 1)
          (bfs_step nbrs false qf vf vb cnt).2.2.1
          (bfs_step nbrs false qf vf vb cnt).2.1
          (bfs_step nbrs true qb vb (bfs_step nbrs false qf vf vb cnt).2.1
            (bfs_step nbrs false qf vf vb cnt).2.2.2).2.2.1
          (bfs_step nbrs true qb vb (bfs_step nbrs false qf vf vb cnt).2.1
            (bfs_step nbrs false qf vf vb cnt).2.2.2).2.1
          (bfs_step nbrs true qb vb (bfs_step nbrs false qf vf vb cnt).2.1
            (bfs_step nbrs false qf vf vb cnt).2.2.2).2.2.2
          f2 g2
          (fun x hx => ⟨f4 x hx, f2.len _ (vlookup_mem _ x (f4 x hx))⟩)
          (fun x hx => ⟨g4 x hx, g2.len _ (vlookup_mem _ x (g4 x hx))⟩)
          (fun x hx hx' => g3 x hx' hx)
          (by omega) p hp
        obtain ⟨hlen, hst, x, hx1, hx2⟩ := hres
        refine ⟨by omega, hst, x, ?_, ?_⟩
        · exact reachWithin_mono nbrs (by omega) hx1
        · exact reachWithin_mono nbrs (by omega) hx2

theorem bfs_loop_initial (nbrs : NodeId → List NodeId) (a b : NodeId) (d : Nat)
    (hab : a ≠ b) :
    ∀ p, (bfs_loop nbrs d [a] [(a, [a])] [b] [(b, [b])] 0).1 = some p →
      p.length ≤ 2 * d + 1 ∧ StitchedPath nbrs a b p ∧
      ∃ x, x ∈ reachWithin nbrs d a ∧ x ∈ reachWithin nbrs d b := by
  intro p hp
  obtain ⟨hlen, hst, x, hx1, hx2⟩ := bfs_loop_spec nbrs a b d 1 [a] [(a, [a])] [b]
    [(b, [b])] 0 (SideWF.singleton nbrs a) (SideWF.singleton nbrs b)
    (by
      intro x hx
      rcases List.mem_singleton.mp hx with rfl
      exact ⟨by simp [vkeys], by simp [vlookup]⟩)
    (by
      intro x hx
      rcases List.mem_singleton.mp hx with rfl
      exact ⟨by simp [vkeys], by simp [vlookup]⟩)
    (by
      intro x hx hx'
      simp [vkeys] at hx hx'
      exact hab (hx.symm.trans hx'))
    (le_refl 1) p hp
  exact ⟨by omega, hst,
    x, reachWithin_mono nbrs (by omega) hx1, reachWithin_mono nbrs (by omega) hx2⟩

/-! ### Claim theorems -/

/-- Claim C10: `PaperGraph.add_node` is a no-op on a falsy paper dict and
otherwise replaces the entry for the id wholesale — including the
`node_type`, so a previous role (`start`/`end` included) is overwritten by a
later call with a different type. -/
theorem add_node_replaces_wholesale (g : PaperGraph) (id : NodeId) (t : String) :
    g.add_node id none t = g ∧
    ∀ p : PaperData,
      lookupNode (g.add_node id (some p) t) id = some (mkNodeData p t) ∧
      (mkNodeData p t).node_type = t ∧
      (g.add_node id (some p) t).edges = g.edges ∧
      (g.add_node id (some p) t).agent_path = g.agent_path := by
  refine ⟨rfl, fun p => ⟨?_, rfl, rfl, rfl⟩⟩
  unfold lookupNode PaperGraph.add_node
  rw [find?_dictInsert]
  rfl

/-- Claim C8 counterexample: `add_edge("A","B")` followed by
`add_edge("B","A")` leaves two edge records for the unordered pair
`{"A","B"}`, not one — the dedupe test compares ordered
`{source, target}` records. -/
theorem add_edge_unordered_cex :
    (addEdges PaperGraph.empty [("A", "B"), ("B", "A")]).edges = [("A", "B"), ("B", "A")] ∧
    (addEdges PaperGraph.empty [("A", "B"), ("B", "A")]).edges.length = 2 := by
  constructor <;> rfl

/-- Claim C8 (amended): `PaperGraph` edges deduplicate by ordered
`(source, target)` record: repeating `add_edge(a, b)` adds nothing, and any
sequence of `add_edge` calls from the empty graph leaves an edge list without
duplicate records; two records with swapped endpoints are however kept as two
distinct edges. -/
theorem add_edge_ordered_dedup :
    (∀ (g : PaperGraph) (a b : NodeId), (g.add_edge a b).add_edge a b = g.add_edge a b) ∧
    (∀ ps : List (NodeId × NodeId), (addEdges PaperGraph.empty ps).edges.Nodup) := by
  constructor
  · intro g a b
    unfold PaperGraph.add_edge
    by_cases h : (a, b) ∈ g.edges
    · simp [h]
    · simp [h]
  · intro ps
    exact addEdges_edges_nodup ps PaperGraph.empty List.nodup_nil

/-- Claim C9: in every branch of `OpenAlexClient.get_neighbors` (OpenCitations
by DOI, OpenCitations via a resolved DOI, OpenAlex `referenced_works`, and all
failure branches) the returned neighbor list has length at most 25. -/
theorem get_neighbors_length_le (env : ApiEnv) (id doi : Option String) :
    (get_neighbors env id doi).length ≤ 25 := by
  have hdoi : ∀ d, (get_neighbors_doi env d).length ≤ 25 := by
    intro d
    unfold get_neighbors_doi
    cases make_open_citations_request env d with
    | none => simp
    | some items =>
      by_cases hie : items.isEmpty
      · simp [hie]
      · simp only [hie]
        by_cases hoe : (extractOpenAlexIds env items).isEmpty
        · simp [hoe]
        · simp only [hoe, if_neg, Bool.false_eq_true, if_false]
          exact le_trans (List.length_take_le _ _) (by norm_num)
  have hvia : ∀ work out, via_opencitations env work = some out → out.length ≤ 25 := by
    intro work out h
    unfold via_opencitations at h
    cases hids : work.ids_doi with
    | none => simp only [hids] at h; exact Option.noConfusion h
    | some dv =>
      simp only [hids] at h
      by_cases hdv : dv = ""
      · rw [if_pos hdv] at h; exact Option.noConfusion h
      · rw [if_neg hdv] at h
        cases hoc : make_open_citations_request env dv with
        | none => simp only [hoc] at h; exact Option.noConfusion h
        | some items =>
          simp only [hoc] at h
          by_cases hie : items.isEmpty
          · rw [if_pos hie] at h; exact Option.noConfusion h
          · rw [if_neg hie] at h
            by_cases hoe : (extractOpenAlexIds env items).isEmpty
            · simp only [hoe, if_true] at h; exact Option.noConfusion h
            · simp only [hoe, Bool.false_eq_true, if_false, Option.some.injEq] at h
              rw [← h]
              exact le_trans (List.length_take_le _ _) (by norm_num)
  unfold get_neighbors
  by_cases hd : truthyS doi
  · simp only [hd, if_true]
    exact hdoi _
  · simp only [hd, Bool.false_eq_true, if_false]
    by_cases hi : truthyS id
    · simp only [hi, if_true]
      by_cases hdoi2 : is_doi (id.getD "")
      · simp only [hdoi2, if_true]
        by_cases hcd : clean_doi (id.getD "") = ""
        · simp [hcd]
        · simp only [hcd, if_false]
          exact hdoi _
      · simp only [hdoi2, Bool.false_eq_true, if_false]
        cases hw : env.works (normalize_id (id.getD "")) with
        | none => simp [hw]
        | some work =>
          simp only [hw]
          cases hv : via_opencitations env work with
          | none =>
            simp only [hv, List.length_map]
            exact le_trans (List.length_take_le _ _) (by norm_num)
          | some out =>
            simp only [hv]
            exact hvia work out hv
    · simp [hi]

/-- Claim C6: for `start == end` the solver returns the single-node path
`[start]` with zero neighbor fetches (it issues no metadata fetches at all). -/
theorem bfs_trivial_case (nbrs : NodeId → List NodeId) (a : NodeId) (d : Nat) :
    find_shortest_path_bfs nbrs a a d = (some [a], 0) := by
  simp [find_shortest_path_bfs]

/-- Claim C5: `make_choice` with an id that is not a frontier key of an
active session returns `InvalidChoice` and leaves the entire session state —
frontier, path, turn count, activity flag — unchanged. -/
theorem invalid_choice_noop (P : Provider) (s : SessionState) (c : NodeId)
    (hact : s.game_active = true) (hmem : c ∉ s.frontier.map Prod.fst) :
    make_choice P s c = (ChoiceResult.invalidChoice, s) := by
  unfold make_choice
  rw [if_neg (by simp [hact]), if_pos hmem]

/-- Claim C1 (amended): provided the end node is not among the start node's
fetched neighbors, every reachable state of a session satisfies both invariant
parts: the end node is never a frontier key, and the frontier is disjoint from
the walked agent path.  Without that proviso both parts fail on the code:
`initialize_game`'s automatic expansion applies no end-skip, so an end node
adjacent to the start enters the frontier, and a later winning `make_choice`
appends the end node to the agent path while it remains a frontier key (see
the counterexample for both). -/
theorem session_invariant (P : Provider) (a b : NodeId) (mt : Nat) (s : SessionState)
    (hr : Reachable P a b mt s) (hnb : b ∉ P.getNeighbors a) :
    b ∉ s.frontier.map Prod.fst ∧
    ∀ k ∈ s.frontier.map Prod.fst, k ∉ s.graph.agent_path := by
  obtain ⟨_, _, hef, _, hdf⟩ := reachable_inv P a b mt hnb s hr
  exact ⟨hef, hdf⟩

/-- Claim C1 counterexample: both parts of the invariant as stated are false.
`"B"` is the end node and a neighbor of the start node `"A"`: right after
`initialize_game`'s automatic expansion it is a key of the frontier; and after
the winning `make_choice` on `"C"` (whose neighbors contain the end node) it
is simultaneously a frontier key and an element of the walked agent path, so
the frontier is not disjoint from the path at that reachable state either. -/
theorem session_invariant_cex :
    ("B" ∈ ((initialize_game endAdjProvider "A" "B" 5).2).frontier.map Prod.fst) ∧
    ("B" ∈ ((make_choice endAdjProvider (initialize_game endAdjProvider "A" "B" 5).2
        "C").2).frontier.map Prod.fst ∧
      "B" ∈ ((make_choice endAdjProvider (initialize_game endAdjProvider "A" "B" 5).2
        "C").2).graph.agent_path) := by
  refine ⟨by decide, by decide, by decide⟩

/-- Witness for C1: on the chain `A - B - C - D` with end `"D"` (not adjacent
to the start), the invariant holds at the state reached by initializing and
expanding `"B"`. -/
theorem session_invariant_witness :
    "D" ∉ chainProvider.getNeighbors "A" ∧
    ("D" ∉ ((make_choice chainProvider (initialize_game chainProvider "A" "D" 3).2
        "B").2).frontier.map Prod.fst ∧
      ∀ k ∈ ((make_choice chainProvider (initialize_game chainProvider "A" "D" 3).2
        "B").2).frontier.map Prod.fst,
        k ∉ ((make_choice chainProvider (initialize_game chainProvider "A" "D" 3).2
          "B").2).graph.agent_path) :=
  ⟨by decide,
   session_invariant chainProvider "A" "D" 3 _
     (Reachable.step _ "B" Reachable.init) (by decide)⟩

theorem runChoices_turnLimit (P : Provider) :
    ∀ (cs : List NodeId) (s : SessionState),
      s.game_active = true → validRun P s cs = true → cs ≠ [] →
      s.current_turn + cs.length = s.max_turns →
      (runChoices P s cs).2 = some (ChoiceResult.turnLimit s.max_turns) ∧
      (runChoices P s cs).1.graph.agent_path = s.graph.agent_path ++ cs ∧
      (runChoices P s cs).1.game_active = false := by
  intro cs
  induction cs with
  | nil => intro s _ _ hne _; exact absurd rfl hne
  | cons c cs ih =>
    intro s hact hvalid _ hsum
    simp only [validRun, Bool.and_eq_true, decide_eq_true_eq] at hvalid
    obtain ⟨⟨⟨_, hc⟩, hnw⟩, hrest⟩ := hvalid
    have hchar := make_choice_nonwin_eq P s c hact hc hnw _ rfl
    have hpath' : (make_choice P s c).2.graph.agent_path = s.graph.agent_path ++ [c] := by
      rw [hchar]
      show (choiceExpandLoop P s.end_id c (P.getNeighbors c) _).1.agent_path = _
      rw [choiceExpandLoop_agent_path, setNodeType_agent_path]
    cases cs with
    | nil =>
      have hge : s.current_turn + 1 ≥ s.max_turns := by
        simp only [List.length_cons, List.length_nil] at hsum
        omega
      have hturn : s.current_turn + 1 = s.max_turns := by
        simp only [List.length_cons, List.length_nil] at hsum
        omega
      simp only [runChoices]
      refine ⟨?_, ?_, ?_⟩
      · rw [hchar]
        simp [hge, hturn]
      · rw [hpath']
      · rw [hchar]
        simp [hge]
    | cons c' cs' =>
      have hact2 : (make_choice P s c).2.game_active = true := by
        simp only [validRun, Bool.and_eq_true, decide_eq_true_eq] at hrest
        exact hrest.1.1.1
      have hsum2 : (make_choice P s c).2.current_turn + (c' :: cs').length
          = (make_choice P s c).2.max_turns := by
        rw [hchar]
        simp only [List.length_cons] at hsum ⊢
        omega
      have hmax : (make_choice P s c).2.max_turns = s.max_turns := by
        rw [hchar]
      obtain ⟨ih1, ih2, ih3⟩ := ih (make_choice P s c).2 hact2 hrest (by simp) hsum2
      have hrun : runChoices P s (c :: c' :: cs') = runChoices P (make_choice P s c).2
          (c' :: cs') := by
        simp only [runChoices]
      rw [hrun]
      refine ⟨by rw [ih1, hmax], ?_, ih3⟩
      rw [ih2, hpath', List.append_assoc, List.singleton_append]

/-- Claim C2 (amended, requiring `maxTurns ≥ 1`): after a successful
`initialize_game` with turn budget `maxTurns ≥ 1`, a run of exactly
`maxTurns` valid `make_choice` calls — each choosing a current frontier key,
none of whose expansions contains the end node — ends with result
`TurnLimitExceeded`, an inactive session, and a walked path that is exactly
the start node followed by the chosen nodes in order (`maxTurns + 1` nodes).
With `maxTurns = 0` the session instead simply stays active (see the
counterexample). -/
theorem turn_accounting (P : Provider) (a b : NodeId) (mt : Nat) (cs : List NodeId)
    (hmt : 1 ≤ mt) (hok : (initialize_game P a b mt).1 = true)
    (hlen : cs.length = mt)
    (hvalid : validRun P (initialize_game P a b mt).2 cs = true) :
    (runChoices P (initialize_game P a b mt).2 cs).2
      = some (ChoiceResult.turnLimit mt) ∧
    (runChoices P (initialize_game P a b mt).2 cs).1.graph.agent_path = a :: cs ∧
    (runChoices P (initialize_game P a b mt).2 cs).1.graph.agent_path.length = mt + 1 ∧
    (runChoices P (initialize_game P a b mt).2 cs).1.game_active = false := by
  obtain ⟨hstart, hend, hmax, hturn, hact, hcase⟩ := initialize_game_spec P a b mt
  rcases hcase with ⟨hfail, _, _⟩ | ⟨_, hp, _, _, _⟩
  · rw [hok] at hfail
    exact absurd hfail (by simp)
  · have hne : cs ≠ [] := by
      intro h
      rw [h] at hlen
      simp at hlen
      omega
    obtain ⟨h1, h2, h3⟩ := runChoices_turnLimit P cs (initialize_game P a b mt).2 hact
      hvalid hne (by rw [hturn, hlen, hmax]; omega)
    refine ⟨by rw [h1, hmax], ?_, ?_, h3⟩
    · rw [h2, hp, List.singleton_append]
    · rw [h2, hp, List.singleton_append, List.length_cons, hlen]

/-- Claim C2 counterexample: with `maxTurns = 0`, `initialize_game` followed
by exactly zero valid `make_choice` calls leaves the session active with no
step result at all — not in the `TurnLimitExceeded` state the claim
promises for every session. -/
theorem turn_accounting_cex :
    (initialize_game chainProvider "A" "D" 0).1 = true ∧
    validRun chainProvider (initialize_game chainProvider "A" "D" 0).2 [] = true ∧
    (runChoices chainProvider (initialize_game chainProvider "A" "D" 0).2 []).2 = none ∧
    (runChoices chainProvider (initialize_game chainProvider "A" "D" 0).2
      []).1.game_active = true := by
  refine ⟨by decide, rfl, rfl, by decide⟩

/-- Witness for C2: the spec's end-to-end scenario — chain `A - B - C - D`,
`maxTurns = 1`, one valid advance to `B` — ends in `TurnLimitExceeded` with
path `[A, B]`. -/
theorem turn_accounting_witness :
    (runChoices chainProvider (initialize_game chainProvider "A" "D" 1).2 ["B"]).2
      = some (ChoiceResult.turnLimit 1) ∧
    (runChoices chainProvider (initialize_game chainProvider "A" "D" 1).2
      ["B"]).1.graph.agent_path = ["A", "B"] ∧
    (runChoices chainProvider (initialize_game chainProvider "A" "D" 1).2
      ["B"]).1.graph.agent_path.length = 1 + 1 ∧
    (runChoices chainProvider (initialize_game chainProvider "A" "D" 1).2
      ["B"]).1.game_active = false :=
  turn_accounting chainProvider "A" "D" 1 ["B"] (by decide) (by decide) rfl (by decide)

/-- Claim C7: failing to resolve the start or end paper during
`initialize_game` returns the explicit error result `false`; a fetch failure
for any other node is soft — the client's failure branch returns the empty
neighbor list, and `make_choice` on a node whose neighbor fetch came back
empty still returns a normal step result (the turn is consumed and the
session proceeds to its usual terminal checks; no error, no exception). -/
theorem fetch_failure_semantics :
    (∀ (P : Provider) (a b : NodeId) (mt : Nat),
      P.getPaper a = none ∨ P.getPaper b = none →
      (initialize_game P a b mt).1 = false) ∧
    (∀ env : ApiEnv, (∀ k, env.works k = none) → (∀ k, env.oc k = none) →
      ∀ id doi, get_neighbors env id doi = []) ∧
    (∀ (P : Provider) (s : SessionState) (c : NodeId),
      s.game_active = true → c ∈ s.frontier.map Prod.fst → P.getNeighbors c = [] →
      ((make_choice P s c).1 = ChoiceResult.turnLimit (s.current_turn + 1) ∨
       (make_choice P s c).1 = ChoiceResult.exhausted (s.current_turn + 1) ∨
       (make_choice P s c).1 = ChoiceResult.continueGame (s.current_turn + 1)) ∧
      (make_choice P s c).2.current_turn = s.current_turn + 1) := by
  refine ⟨?_, ?_, ?_⟩
  · intro P a b mt h
    rcases h with h | h
    · simp only [initialize_game, h]
    · cases hsp : P.getPaper a <;> simp only [initialize_game, hsp, h]
  · intro env hw hoc id doi
    have hdoi : ∀ d, get_neighbors_doi env d = [] := by
      intro d
      simp [get_neighbors_doi, make_open_citations_request, hoc]
    simp only [get_neighbors]
    by_cases h1 : truthyS doi
    · simp [h1, hdoi]
    · simp only [h1, Bool.false_eq_true, if_false]
      by_cases h2 : truthyS id
      · simp only [h2, if_true]
        by_cases h3 : is_doi (id.getD "")
        · simp [h3, hdoi]
        · simp [h3, hw]
      · simp [h2]
  · intro P s c hact hc hns
    have hnw : s.end_id ∉ P.getNeighbors c := by rw [hns]; exact List.not_mem_nil _
    have hchar := make_choice_nonwin_eq P s c hact hc hnw _ rfl
    constructor
    · rw [hchar]
      dsimp only
      by_cases h1 : s.current_turn + 1 ≥ s.max_turns
      · rw [if_pos h1]
        exact Or.inl rfl
      · rw [if_neg h1]
        split
        · exact Or.inr (Or.inl rfl)
        · exact Or.inr (Or.inr rfl)
    · rw [hchar]

/-- Witness for C7: the always-failing provider makes `initialize_game`
return the error result; the all-failing API environment yields an empty
neighbor list; and a `make_choice` on a node with an empty neighbor list
still consumes the turn normally. -/
theorem fetch_failure_semantics_witness :
    (initialize_game failProvider "A" "B" 3).1 = false ∧
    get_neighbors emptyApiEnv (some "W1") none = [] ∧
    (make_choice failProvider sampleActiveState "B").2.current_turn = 0 + 1 :=
  ⟨fetch_failure_semantics.1 failProvider "A" "B" 3 (Or.inl rfl),
   fetch_failure_semantics.2.1 emptyApiEnv (fun _ => rfl) (fun _ => rfl) (some "W1") none,
   (fetch_failure_semantics.2.2 failProvider sampleActiveState "B" rfl (by decide) rfl).2⟩

/-- Claim C3: the bidirectional solver returns "not found" (`none`) when its
`maxDepth` rounds elapse without the two searches intersecting — here phrased
semantically: whenever no node is reachable within `maxDepth` edges from both
endpoints, the result is `none` — and every path it does return has at most
`2·maxDepth` edges (`2·maxDepth + 1` nodes). -/
theorem bfs_depth_bound (nbrs : NodeId → List NodeId) (a b : NodeId) (d : Nat) :
    (∀ p, (find_shortest_path_bfs nbrs a b d).1 = some p → p.length ≤ 2 * d + 1) ∧
    ((∀ x ∈ reachWithin nbrs d a, x ∉ reachWithin nbrs d b) →
      (find_shortest_path_bfs nbrs a b d).1 = none) := by
  constructor
  · intro p hp
    by_cases hab : a = b
    · subst hab
      simp only [find_shortest_path_bfs, if_pos rfl] at hp
      obtain rfl : [a] = p := Option.some_inj.mp hp
      simp
    · simp only [find_shortest_path_bfs, if_neg hab] at hp
      exact (bfs_loop_initial nbrs a b d hab p hp).1
  · intro hdisj
    by_cases hab : a = b
    · subst hab
      exact absurd (reachWithin_self nbrs d a)
        (hdisj a (reachWithin_self nbrs d a))
    · simp only [find_shortest_path_bfs, if_neg hab]
      cases hloop : (bfs_loop nbrs d [a] [(a, [a])] [b] [(b, [b])] 0).1 with
      | none => rfl
      | some p =>
        exfalso
        obtain ⟨_, _, x, hx1, hx2⟩ := bfs_loop_initial nbrs a b d hab p hloop
        exact hdisj x hx1 hx2

/-- Witness for C3: on the chain `A - B`, depth 1 returns the two-node path
(at most `2·1` edges); on the edgeless graph, whose depth-1 reach sets from
`A` and `B` are disjoint, the solver returns `none`. -/
theorem bfs_depth_bound_witness :
    (["A", "B"].length ≤ 2 * 1 + 1) ∧
    (find_shortest_path_bfs noEdges "A" "B" 1).1 = none :=
  ⟨(bfs_depth_bound nbrsChain "A" "B" 1).1 ["A", "B"] rfl,
   (bfs_depth_bound noEdges "A" "B" 1).2 (by decide)⟩

/-- Claim C4: whenever the two searches meet (`start ≠ end` and a path is
returned), the result decomposes as the forward partial path followed by the
reversed backward partial path around the meeting node: it runs from start to
end, steps along fetched-neighbor edges forward before the meeting node and
against them after it, and contains the meeting node exactly once. -/
theorem bfs_meeting_stitch (nbrs : NodeId → List NodeId) (a b : NodeId) (d : Nat)
    (hab : a ≠ b) (p : List NodeId)
    (hp : (find_shortest_path_bfs nbrs a b d).1 = some p) :
    StitchedPath nbrs a b p := by
  simp only [find_shortest_path_bfs, if_neg hab] at hp
  exact (bfs_loop_initial nbrs a b d hab p hp).2.1

/-- Witness for C4: the returned path `[A, B]` of the chain search is a
stitched meeting path from `A` to `B`. -/
theorem bfs_meeting_stitch_witness :
    StitchedPath nbrsChain "A" "B" ["A", "B"] :=
  bfs_meeting_stitch nbrsChain "A" "B" 1 (by decide) ["A", "B"] rfl

/-- Witness for C5: a concrete active session with frontier `{B}` rejects the
choice `C` without any state change. -/
theorem invalid_choice_noop_witness :
    sampleActiveState.game_active = true ∧
    "C" ∉ sampleActiveState.frontier.map Prod.fst ∧
    make_choice chainProvider sampleActiveState "C" = (ChoiceResult.invalidChoice, sampleActiveState) :=
  ⟨rfl, by decide, invalid_choice_noop chainProvider sampleActiveState "C" rfl (by decide)⟩

end SciPathBench
